/-
A verification development for the rublo repository: a server for scalable
Bloom filters (src/filter.rs, src/server.rs).

Shallow embedding conventions:

* Byte strings (`&[u8]`) are `List Nat`.
* The external hash function `gxhash::gxhash32(bytes, seed)` is a third-party
  crate and cannot be reproduced here; the whole development is parameterized
  by an arbitrary `Hash : Bytes → Nat → Nat` (bytes, seed ↦ hash value).
  `... as usize % capacity` is `h bytes i % capacity` on `Nat`.
* `BloomFilter::get_bitmap_size` and `BloomFilter::get_optimal_hash_count`
  are `f64` floating-point computations (`ln`, `ceil`); IEEE-754 rounding is
  not reproduced.  The development is parameterized by an arbitrary pair
  `SizeFns` of sizing functions (`fpp` values are carried as exact `ℚ`).
  No theorem below depends on the concrete values these functions produce
  unless it takes them as explicit hypotheses or concrete instances.
* Rust panics (bit-index out of bounds, `% 0`, failed `assert!`,
  `Option::unwrap`) are modelled by `Option`: `none` is a panic.
* `Utc::now()` is modelled by an explicit `now : Int` parameter (seconds).
* `bitvec`'s `BitVec::clear` empties the vector (length 0); it does not
  zero the bits.  The model reproduces exactly that.
-/
import Mathlib

deriving instance DecidableEq for Except

/-- Byte strings, the `&[u8]` values fed to the filters. -/
abbrev Bytes : Type := List Nat

/-- The hash family: `gxhash32(bytes, seed)`, left abstract. -/
abbrev Hash : Type := Bytes → Nat → Nat

/-- The two `f64` sizing computations of `BloomFilter::new`, left abstract:
`bitmapSize items_count fpp` models `get_bitmap_size`,
`hashCount bitmap_size items_count` models `get_optimal_hash_count`. -/
structure SizeFns where
  bitmapSize : Nat → ℚ → Nat
  hashCount : Nat → Nat → Nat

/-- `struct BloomFilter` of src/filter.rs.  `bitmap : BitVec` is a
`List Bool`; all counters are `Nat`. -/
structure BloomFilter where
  capacity : Nat
  size : Nat
  bitmap : List Bool
  hash_count : Nat
  hits : Nat
  miss : Nat
deriving Repr, DecidableEq

/-- `BloomFilter::new(capacity, fpp)`.  The `assert!(capacity > 0 && fpp > 0.)`
is the `if`; a failed assert is a panic (`none`).  The stored `capacity`
field is the computed bitmap size, and the bitmap is that many zero bits. -/
def BloomFilter.new (fns : SizeFns) (capacity : Nat) (fpp : ℚ) :
    Option BloomFilter :=
  if 0 < capacity ∧ 0 < fpp then
    let bitmap_size := fns.bitmapSize capacity fpp
    some { capacity := bitmap_size
           size := 0
           bitmap := List.replicate bitmap_size false
           hash_count := fns.hashCount bitmap_size capacity
           hits := 0
           miss := 0 }
  else none

/-- `BloomFilter::byte_space`. -/
def BloomFilter.byte_space (f : BloomFilter) : Nat := f.capacity / 8

/-- The `k` bit positions `gxhash32(bytes, i) as usize % capacity` for
`i ∈ [0, hash_count)` used by both `set` and `check`. -/
def bfPositions (h : Hash) (bytes : Bytes) (f : BloomFilter) : List Nat :=
  (List.range f.hash_count).map (fun i => h bytes i % f.capacity)

/-- The body of `BloomFilter::set`'s `for` loop.  At each position the code
runs `if allbits && self.bitmap[hash] { allbits = false; }` followed by
`self.bitmap.set(hash, true)`; an out-of-bounds index (the read or the
write) is a panic. -/
def bfSetLoop : List Nat → List Bool → Bool → Option (List Bool × Bool)
  | [], bm, allbits => some (bm, allbits)
  | p :: ps, bm, allbits =>
    if p < bm.length then
      bfSetLoop ps (bm.set p true) (allbits && !(bm.getD p false))
    else none

/-- `BloomFilter::set(bytes)`.  Returns `Full capacity reached` if
`size == capacity` (before anything else); a `% 0` with at least one loop
iteration is a panic; otherwise runs the loop, increments `size` when
`allbits` survived, and returns `Ok(!allbits)`. -/
def BloomFilter.set (h : Hash) (bytes : Bytes) (f : BloomFilter) :
    Option (Except String Bool × BloomFilter) :=
  if f.size = f.capacity then
    some (Except.error "Full capacity reached", f)
  else if f.hash_count ≠ 0 ∧ f.capacity = 0 then none
  else
    match bfSetLoop (bfPositions h bytes f) f.bitmap true with
    | none => none
    | some (bm, allbits) =>
      some (Except.ok (!allbits),
            { f with bitmap := bm
                     size := if allbits then f.size + 1 else f.size })

/-- The body of `BloomFilter::check`'s loop: return `false` at the first
zero bit (later positions are not evaluated), else `true`.  An
out-of-bounds read is a panic. -/
def bfCheckLoop (bm : List Bool) : List Nat → Option Bool
  | [] => some true
  | p :: ps =>
    if p < bm.length then
      if bm.getD p false then bfCheckLoop bm ps else some false
    else none

/-- `BloomFilter::check(bytes)`: a miss bumps `miss`, a hit bumps `hits`. -/
def BloomFilter.check (h : Hash) (bytes : Bytes) (f : BloomFilter) :
    Option (Bool × BloomFilter) :=
  if f.hash_count ≠ 0 ∧ f.capacity = 0 then none
  else
    match bfCheckLoop f.bitmap (bfPositions h bytes f) with
    | none => none
    | some true => some (true, { f with hits := f.hits + 1 })
    | some false => some (false, { f with miss := f.miss + 1 })

/-- `BloomFilter::clear`: `self.bitmap.clear()` is `BitVec::clear`, which
REMOVES ALL BITS (length becomes 0) rather than zeroing them; `size = 0`. -/
def BloomFilter.clear (f : BloomFilter) : BloomFilter :=
  { f with bitmap := [], size := 0 }

/-- `enum ScaleFactor`: `SmallScaleSize = 2`, `LargeScaleSize = 4`. -/
inductive ScaleFactor where
  | smallScaleSize
  | largeScaleSize
deriving Repr, DecidableEq

/-- The discriminant used by `self.scale_factor as usize`. -/
def ScaleFactor.toNat : ScaleFactor → Nat
  | .smallScaleSize => 2
  | .largeScaleSize => 4

/-- `struct ScalableBloomFilter` of src/filter.rs; timestamps are UTC
seconds as `Int`. -/
structure ScalableBloomFilter where
  name : String
  initial_capacity : Nat
  filters : List BloomFilter
  fpp : ℚ
  scale_factor : ScaleFactor
  creation_time : Int
  last_access_time : Int
deriving Repr, DecidableEq

/-- `ScalableBloomFilter::new`. -/
def ScalableBloomFilter.new (name : String) (initial_capacity : Nat)
    (fpp : ℚ) (scale_factor : ScaleFactor) (now : Int) :
    ScalableBloomFilter :=
  { name := name
    initial_capacity := initial_capacity
    filters := []
    fpp := fpp
    scale_factor := scale_factor
    creation_time := now
    last_access_time := now }

/-- `ScalableBloomFilter::filter_count`. -/
def ScalableBloomFilter.filter_count (s : ScalableBloomFilter) : Nat :=
  s.filters.length

/-- `ScalableBloomFilter::size`: `fold(0, |acc, x| acc + x.size())`. -/
def ScalableBloomFilter.size (s : ScalableBloomFilter) : Nat :=
  s.filters.foldl (fun acc f => acc + f.size) 0

/-- `ScalableBloomFilter::capacity`. -/
def ScalableBloomFilter.capacity (s : ScalableBloomFilter) : Nat :=
  if s.filters.isEmpty then s.initial_capacity
  else s.filters.foldl (fun acc f => acc + f.capacity) 0

/-- `ScalableBloomFilter::byte_space`. -/
def ScalableBloomFilter.byte_space (s : ScalableBloomFilter) : Nat :=
  if s.filters.isEmpty then s.initial_capacity / 8
  else s.filters.foldl (fun acc f => acc + f.byte_space) 0

/-- `ScalableBloomFilter::hits`. -/
def ScalableBloomFilter.hits (s : ScalableBloomFilter) : Nat :=
  s.filters.foldl (fun acc f => acc + f.hits) 0

/-- `ScalableBloomFilter::miss`. -/
def ScalableBloomFilter.miss (s : ScalableBloomFilter) : Nat :=
  s.filters.foldl (fun acc f => acc + f.miss) 0

/-- `ScalableBloomFilter::hash_count`: max over stages, 0 when empty. -/
def ScalableBloomFilter.hash_count (s : ScalableBloomFilter) : Nat :=
  (s.filters.map (fun f => f.hash_count)).foldl Nat.max 0

/-- The loop of `ScalableBloomFilter::check`, run over `filters` already
reversed (the source iterates `iter_mut().rev()`): stop at the first stage
whose `check` is true; counters of scanned stages are updated in place. -/
def sbfCheckLoop (h : Hash) (bytes : Bytes) :
    List BloomFilter → Option (Bool × List BloomFilter)
  | [] => some (false, [])
  | f :: rest =>
    match BloomFilter.check h bytes f with
    | none => none
    | some (true, f') => some (true, f' :: rest)
    | some (false, f') =>
      match sbfCheckLoop h bytes rest with
      | none => none
      | some (b, rest') => some (b, f' :: rest')

/-- `ScalableBloomFilter::check(bytes)`: updates `last_access_time`, scans
stages newest-first. -/
def ScalableBloomFilter.check (h : Hash) (now : Int) (bytes : Bytes)
    (s : ScalableBloomFilter) : Option (Bool × ScalableBloomFilter) :=
  match sbfCheckLoop h bytes s.filters.reverse with
  | none => none
  | some (b, fs) =>
    some (b, { s with last_access_time := now, filters := fs.reverse })

/-- `ScalableBloomFilter::add_filter(capacity, fpp)`:
pushes `BloomFilter::new(capacity, fpp)` (whose assert may panic). -/
def ScalableBloomFilter.add_filter (fns : SizeFns) (capacity : Nat)
    (fpp : ℚ) (s : ScalableBloomFilter) : Option ScalableBloomFilter :=
  (BloomFilter.new fns capacity fpp).map
    (fun bf => { s with filters := s.filters ++ [bf] })

/-- `fpp * FALSE_POSITIVE_PROBABILITY_RATIO`: an executable form of
rational multiplication (`Rat.mul` is `@[irreducible]`); `ratMul_mul`
below proves it IS rational multiplication. -/
def ratMul (a b : ℚ) : ℚ := mkRat (a.num * b.num) (a.den * b.den)

theorem ratMul_mul (a b : ℚ) : ratMul a b = a * b := by
  rw [Rat.mul_def, Rat.normalize_eq_mkRat]
  rfl

/-- The stage-selection step of `ScalableBloomFilter::set` (lines 318-330):
if there is a last stage and it is full, or there is no stage at all, call
`add_filter(initial_capacity * scale_factor, fpp * 0.9)`
(`FALSE_POSITIVE_PROBABILITY_RATIO = 0.9`).  Returns the pair
(all stages before the last, last stage): the full stage list is the first
component with the second appended. -/
def sbfGrow (fns : SizeFns) (s : ScalableBloomFilter) :
    Option (List BloomFilter × BloomFilter) :=
  match s.filters.getLast? with
  | some f =>
    if f.size = f.capacity then
      (BloomFilter.new fns (s.initial_capacity * s.scale_factor.toNat)
          (ratMul s.fpp (mkRat 9 10))).map (fun nf => (s.filters, nf))
    else some (s.filters.dropLast, f)
  | none =>
    (BloomFilter.new fns (s.initial_capacity * s.scale_factor.toNat)
        (ratMul s.fpp (mkRat 9 10))).map (fun nf => ([], nf))

/-- `ScalableBloomFilter::set(bytes)`: update `last_access_time`; early
`Ok(true)` when `check` already answers true; otherwise grow if needed and
delegate to the last stage (`last_mut().unwrap()`). -/
def ScalableBloomFilter.set (h : Hash) (fns : SizeFns) (now : Int)
    (bytes : Bytes) (s : ScalableBloomFilter) :
    Option (Except String Bool × ScalableBloomFilter) :=
  match ScalableBloomFilter.check h now bytes
      { s with last_access_time := now } with
  | none => none
  | some (true, s2) => some (Except.ok true, s2)
  | some (false, s2) =>
    match sbfGrow fns s2 with
    | none => none
    | some (front, f) =>
      match BloomFilter.set h bytes f with
      | none => none
      | some (res, f') =>
        some (res, { s2 with filters := front ++ [f'] })

/-- `ScalableBloomFilter::clear`: clears every stage, touches
`last_access_time`.  Stage bitmaps become empty (see `BloomFilter.clear`). -/
def ScalableBloomFilter.clear (now : Int) (s : ScalableBloomFilter) :
    ScalableBloomFilter :=
  { s with filters := s.filters.map BloomFilter.clear
           last_access_time := now }

/-- Drives a sequence of `set` calls, requiring every one of them to
return `Ok` (no panic, no `Err`), as in claim C1. -/
def sbfRunOk (h : Hash) (fns : SizeFns) (now : Int) :
    List Bytes → ScalableBloomFilter → Option ScalableBloomFilter
  | [], s => some s
  | x :: xs, s =>
    match ScalableBloomFilter.set h fns now x s with
    | some (Except.ok _, s') => sbfRunOk h fns now xs s'
    | _ => none

/-- Drives a sequence of `set` calls, requiring only that none of them
panics (an `Err` response is allowed through). -/
def sbfRun (h : Hash) (fns : SizeFns) (now : Int) :
    List Bytes → ScalableBloomFilter → Option ScalableBloomFilter
  | [], s => some s
  | x :: xs, s =>
    match ScalableBloomFilter.set h fns now x s with
    | some (_, s') => sbfRun h fns now xs s'
    | none => none

/-- Same driver for a single primitive `BloomFilter` (claim C1, second
half): every `set` must return `Ok`. -/
def bfRunOk (h : Hash) : List Bytes → BloomFilter → Option BloomFilter
  | [], f => some f
  | x :: xs, f =>
    match BloomFilter.set h x f with
    | some (Except.ok _, f') => bfRunOk h xs f'
    | _ => none

/-! ### Bit-list helper lemmas -/

/-- Number of set bits in a bitmap. -/
def countTrue (bm : List Bool) : Nat := bm.count true

theorem countTrue_le_length (bm : List Bool) : countTrue bm ≤ bm.length :=
  List.count_le_length true bm

theorem getD_set_self (bm : List Bool) (p : Nat) (hp : p < bm.length) :
    (bm.set p true).getD p false = true := by
  induction bm generalizing p with
  | nil => simp at hp
  | cons b rest ih =>
    cases p with
    | zero => simp [List.set, List.getD]
    | succ q =>
      simp only [List.set, List.getD_cons_succ]
      exact ih q (by simpa using hp)

theorem getD_set_ne (bm : List Bool) (p q : Nat) (hne : q ≠ p) :
    (bm.set p true).getD q false = bm.getD q false := by
  induction bm generalizing p q with
  | nil => simp [List.set]
  | cons b rest ih =>
    cases p with
    | zero =>
      cases q with
      | zero => exact absurd rfl hne
      | succ r => simp [List.set]
    | succ p' =>
      cases q with
      | zero => simp [List.set]
      | succ r =>
        simp only [List.set, List.getD_cons_succ]
        exact ih p' r (by omega)

theorem getD_set_mono (bm : List Bool) (p q : Nat)
    (h : bm.getD q false = true) : (bm.set p true).getD q false = true := by
  induction bm generalizing p q with
  | nil => simp [List.getD] at h
  | cons b rest ih =>
    cases p with
    | zero =>
      cases q with
      | zero => simp [List.set]
      | succ r => simpa [List.set] using h
    | succ p' =>
      cases q with
      | zero => simpa [List.set] using h
      | succ r =>
        simp only [List.set, List.getD_cons_succ] at *
        exact ih p' r h

theorem countTrue_set_of_false (bm : List Bool) (p : Nat)
    (hp : p < bm.length) (hb : bm.getD p false = false) :
    countTrue (bm.set p true) = countTrue bm + 1 := by
  induction bm generalizing p with
  | nil => simp at hp
  | cons b rest ih =>
    cases p with
    | zero =>
      simp only [List.getD_cons_zero] at hb
      subst hb
      simp [List.set, countTrue, List.count_cons]
    | succ q =>
      simp only [List.getD_cons_succ] at hb
      have := ih q (by simpa using hp) hb
      simp only [List.set, countTrue, List.count_cons] at *
      omega

theorem countTrue_set_le (bm : List Bool) (p : Nat) :
    countTrue bm ≤ countTrue (bm.set p true) := by
  induction bm generalizing p with
  | nil => simp [List.set]
  | cons b rest ih =>
    cases p with
    | zero =>
      cases b <;> simp [List.set, countTrue, List.count_cons]
    | succ q =>
      simp only [List.set, countTrue, List.count_cons]
      have := ih q
      simp only [countTrue] at this
      omega

theorem getD_all_true_of_count (bm : List Bool)
    (h : countTrue bm = bm.length) (p : Nat) (hp : p < bm.length) :
    bm.getD p false = true := by
  have hmem : bm.getD p false ∈ bm := by
    rw [List.getD_eq_getElem _ _ hp]
    exact List.getElem_mem hp
  have hall : ∀ b ∈ bm, b = true := by
    intro b hb
    have := (List.count_eq_length.mp h) b hb
    exact this.symm
  exact hall _ hmem

/-! ### `bfSetLoop` lemmas -/

theorem bfSetLoop_length {ps : List Nat} {bm bm' : List Bool}
    {ab ab' : Bool} (h : bfSetLoop ps bm ab = some (bm', ab')) :
    bm'.length = bm.length := by
  induction ps generalizing bm ab with
  | nil => simp [bfSetLoop] at h; simp [h.1]
  | cons p ps ih =>
    simp only [bfSetLoop] at h
    split at h
    · have := ih h
      simpa using this
    · exact absurd h (by simp)

theorem bfSetLoop_mono {ps : List Nat} {bm bm' : List Bool}
    {ab ab' : Bool} (h : bfSetLoop ps bm ab = some (bm', ab')) :
    ∀ q, bm.getD q false = true → bm'.getD q false = true := by
  induction ps generalizing bm ab with
  | nil =>
    simp [bfSetLoop] at h
    intro q hq; rw [← h.1]; exact hq
  | cons p ps ih =>
    simp only [bfSetLoop] at h
    split at h
    · intro q hq
      exact ih h q (getD_set_mono bm p q hq)
    · exact absurd h (by simp)

theorem bfSetLoop_sets {ps : List Nat} {bm bm' : List Bool}
    {ab ab' : Bool} (h : bfSetLoop ps bm ab = some (bm', ab')) :
    ∀ p ∈ ps, bm'.getD p false = true := by
  induction ps generalizing bm ab with
  | nil => simp
  | cons p ps ih =>
    simp only [bfSetLoop] at h
    split at h
    · rename_i hp
      intro q hq
      rcases List.mem_cons.mp hq with rfl | hmem
      · exact bfSetLoop_mono h q (getD_set_self bm q hp)
      · exact ih h q hmem
    · exact absurd h (by simp)

theorem bfSetLoop_false {ps : List Nat} {bm bm' : List Bool}
    {ab' : Bool} (h : bfSetLoop ps bm false = some (bm', ab')) :
    ab' = false := by
  induction ps generalizing bm with
  | nil =>
    simp only [bfSetLoop, Option.some_inj, Prod.mk.injEq] at h
    exact h.2.symm
  | cons p ps ih =>
    simp only [bfSetLoop] at h
    split at h
    · simpa using ih h
    · exact absurd h (by simp)

theorem bfSetLoop_count_le {ps : List Nat} {bm bm' : List Bool}
    {ab ab' : Bool} (h : bfSetLoop ps bm ab = some (bm', ab')) :
    countTrue bm ≤ countTrue bm' := by
  induction ps generalizing bm ab with
  | nil =>
    simp only [bfSetLoop, Option.some_inj, Prod.mk.injEq] at h
    rw [h.1]
  | cons p ps ih =>
    simp only [bfSetLoop] at h
    split at h
    · exact le_trans (countTrue_set_le bm p) (ih h)
    · exact absurd h (by simp)

theorem bfSetLoop_count_of_true {ps : List Nat} {bm bm' : List Bool}
    {ab ab' : Bool} (h : bfSetLoop ps bm ab = some (bm', ab'))
    (hab' : ab' = true) :
    ab = true ∧ countTrue bm' = countTrue bm + ps.length := by
  induction ps generalizing bm ab with
  | nil =>
    simp only [bfSetLoop, Option.some_inj, Prod.mk.injEq] at h
    exact ⟨h.2.trans hab', by simp [h.1]⟩
  | cons p ps ih =>
    simp only [bfSetLoop] at h
    split at h
    · rename_i hp
      obtain ⟨hstep, hcount⟩ := ih h
      have hab : ab = true := by
        cases ab
        · simp at hstep
        · rfl
      have hget : bm.getD p false = false := by
        cases hget : bm.getD p false
        · rfl
        · rw [hab, hget] at hstep; simp at hstep
      refine ⟨hab, ?_⟩
      rw [hcount, countTrue_set_of_false bm p hp hget]
      simp [List.length_cons]
      omega
    · exact absurd h (by simp)

theorem bfSetLoop_total {ps : List Nat} {bm : List Bool}
    (hbound : ∀ p ∈ ps, p < bm.length) (ab : Bool) :
    ∃ out, bfSetLoop ps bm ab = some out := by
  induction ps generalizing bm ab with
  | nil => exact ⟨(bm, ab), rfl⟩
  | cons p ps ih =>
    have hp : p < bm.length := hbound p (List.mem_cons_self p ps)
    simp only [bfSetLoop, hp, if_pos]
    exact ih (fun q hq => by
      rw [List.length_set]
      exact hbound q (List.mem_cons_of_mem p hq)) _

theorem bfSetLoop_nodup_iff {ps : List Nat} {bm bm' : List Bool}
    {ab' : Bool} (hnd : ps.Nodup)
    (h : bfSetLoop ps bm true = some (bm', ab')) :
    ab' = true ↔ ∀ p ∈ ps, bm.getD p false = false := by
  induction ps generalizing bm with
  | nil =>
    simp only [bfSetLoop, Option.some_inj, Prod.mk.injEq] at h
    simp [← h.2]
  | cons p ps ih =>
    simp only [bfSetLoop] at h
    split at h
    · rename_i hp
      have hnd' := (List.nodup_cons.mp hnd).2
      have hpn := (List.nodup_cons.mp hnd).1
      cases hget : bm.getD p false with
      | true =>
        rw [hget] at h
        simp only [Bool.not_true, Bool.and_false] at h
        have := bfSetLoop_false h
        subst this
        refine iff_of_false (by simp) ?_
        intro hall
        have := hall p (List.mem_cons_self p ps)
        rw [hget] at this
        simp at this
      | false =>
        rw [hget] at h
        simp only [Bool.not_false, Bool.and_true] at h
        rw [ih hnd' h]
        constructor
        · intro hall q hq
          rcases List.mem_cons.mp hq with rfl | hmem
          · exact hget
          · have := hall q hmem
            rwa [getD_set_ne bm p q (fun hqp => hpn (hqp ▸ hmem))] at this
        · intro hall q hq
          rw [getD_set_ne bm p q (fun hqp => hpn (hqp ▸ hq))]
          exact hall q (List.mem_cons_of_mem p hq)
    · exact absurd h (by simp)

/-! ### `bfCheckLoop` lemmas -/

theorem bfCheckLoop_true_of_all {bm : List Bool} {ps : List Nat}
    (hall : ∀ p ∈ ps, p < bm.length ∧ bm.getD p false = true) :
    bfCheckLoop bm ps = some true := by
  induction ps with
  | nil => rfl
  | cons p ps ih =>
    obtain ⟨hp, hget⟩ := hall p (List.mem_cons_self p ps)
    simp only [bfCheckLoop, hp, if_pos, hget, if_true]
    exact ih (fun q hq => hall q (List.mem_cons_of_mem p hq))

theorem bfCheckLoop_all_of_true {bm : List Bool} {ps : List Nat}
    (h : bfCheckLoop bm ps = some true) :
    ∀ p ∈ ps, p < bm.length ∧ bm.getD p false = true := by
  induction ps with
  | nil => simp
  | cons p ps ih =>
    simp only [bfCheckLoop] at h
    split at h
    · rename_i hp
      split at h
      · rename_i hget
        intro q hq
        rcases List.mem_cons.mp hq with rfl | hmem
        · exact ⟨hp, hget⟩
        · exact ih h q hmem
      · exact absurd h (by simp)
    · exact absurd h (by simp)

theorem bfCheckLoop_total {bm : List Bool} {ps : List Nat}
    (hbound : ∀ p ∈ ps, p < bm.length) :
    ∃ b, bfCheckLoop bm ps = some b := by
  induction ps with
  | nil => exact ⟨true, rfl⟩
  | cons p ps ih =>
    have hp : p < bm.length := hbound p (List.mem_cons_self p ps)
    simp only [bfCheckLoop, hp, if_pos]
    split
    · exact ih (fun q hq => hbound q (List.mem_cons_of_mem p hq))
    · exact ⟨false, rfl⟩

/-! ### BloomFilter-level predicates and lemmas -/

/-- A filter state `check`/`set` cannot panic on: the bitmap really has
`capacity` entries, and a positive hash count comes with a positive
capacity (no `% 0`). -/
def Checkable (f : BloomFilter) : Prop :=
  f.bitmap.length = f.capacity ∧ (f.hash_count ≠ 0 → 0 < f.capacity)

instance (f : BloomFilter) : Decidable (Checkable f) := by
  unfold Checkable; infer_instance

/-- All of `x`'s bit positions are set in `f` (and `f` is checkable), so a
`check` of `x` on `f` answers `true`. -/
def CoveredB (h : Hash) (x : Bytes) (f : BloomFilter) : Prop :=
  Checkable f ∧ ∀ p ∈ bfPositions h x f, f.bitmap.getD p false = true

instance (h : Hash) (x : Bytes) (f : BloomFilter) :
    Decidable (CoveredB h x f) := by
  unfold CoveredB; infer_instance

/-- The counting invariant behind "a stage reachable by `set`s can only be
full when `hash_count ≤ 1` and every bit is set": each `size` increment
sets `hash_count` fresh bits. -/
def WF2 (f : BloomFilter) : Prop :=
  f.bitmap.length = f.capacity ∧
    f.hash_count * f.size ≤ countTrue f.bitmap

instance (f : BloomFilter) : Decidable (WF2 f) := by
  unfold WF2; infer_instance

theorem bfPositions_length (h : Hash) (x : Bytes) (f : BloomFilter) :
    (bfPositions h x f).length = f.hash_count := by
  simp [bfPositions]

theorem bfPositions_lt (h : Hash) (x : Bytes) (f : BloomFilter)
    (hcap : 0 < f.capacity) : ∀ p ∈ bfPositions h x f, p < f.capacity := by
  intro p hp
  obtain ⟨i, _, rfl⟩ := List.mem_map.mp hp
  exact Nat.mod_lt _ hcap

/-- The record updates of `set` and `check` keep the position list. -/
theorem bfPositions_congr (h : Hash) (x : Bytes) {f g : BloomFilter}
    (hc : g.capacity = f.capacity) (hk : g.hash_count = f.hash_count) :
    bfPositions h x g = bfPositions h x f := by
  simp [bfPositions, hc, hk]

theorem check_total {h : Hash} {x : Bytes} {f : BloomFilter}
    (hf : Checkable f) :
    ∃ b f', BloomFilter.check h x f = some (b, f') ∧
      f'.bitmap = f.bitmap ∧ f'.size = f.size ∧
      f'.capacity = f.capacity ∧ f'.hash_count = f.hash_count := by
  have hguard : ¬(f.hash_count ≠ 0 ∧ f.capacity = 0) := by
    rintro ⟨hk, hc⟩
    exact absurd (hf.2 hk) (by omega)
  have hbound : ∀ p ∈ bfPositions h x f, p < f.bitmap.length := by
    intro p hp
    rcases Nat.eq_zero_or_pos f.capacity with hc | hc
    · rcases Nat.eq_zero_or_pos f.hash_count with hk | hk
      · simp [bfPositions, hk] at hp
      · exact absurd ⟨by omega, hc⟩ hguard
    · rw [hf.1]; exact bfPositions_lt h x f hc p hp
  obtain ⟨b, hb⟩ := bfCheckLoop_total hbound
  cases b with
  | true =>
    refine ⟨true, { f with hits := f.hits + 1 }, ?_, rfl, rfl, rfl, rfl⟩
    simp [BloomFilter.check, hguard, hb]
  | false =>
    refine ⟨false, { f with miss := f.miss + 1 }, ?_, rfl, rfl, rfl, rfl⟩
    simp [BloomFilter.check, hguard, hb]

theorem check_of_covered {h : Hash} {x : Bytes} {f : BloomFilter}
    (hc : CoveredB h x f) :
    BloomFilter.check h x f = some (true, { f with hits := f.hits + 1 }) := by
  obtain ⟨⟨hlen, hkc⟩, hcov⟩ := hc
  have hguard : ¬(f.hash_count ≠ 0 ∧ f.capacity = 0) := by
    rintro ⟨hk, hcap⟩
    exact absurd (hkc hk) (by omega)
  have hloop : bfCheckLoop f.bitmap (bfPositions h x f) = some true := by
    apply bfCheckLoop_true_of_all
    intro p hp
    refine ⟨?_, hcov p hp⟩
    rcases Nat.eq_zero_or_pos f.capacity with hcap | hcap
    · rcases Nat.eq_zero_or_pos f.hash_count with hk | hk
      · simp [bfPositions, hk] at hp
      · exact absurd ⟨by omega, hcap⟩ hguard
    · rw [hlen]; exact bfPositions_lt h x f hcap p hp
  simp [BloomFilter.check, hguard, hloop]

theorem set_fields {h : Hash} {x : Bytes} {f f' : BloomFilter}
    {r : Except String Bool}
    (hs : BloomFilter.set h x f = some (r, f')) :
    f'.capacity = f.capacity ∧ f'.hash_count = f.hash_count ∧
      f'.bitmap.length = f.bitmap.length ∧
      (f'.size = f.size ∨ f'.size = f.size + 1) ∧
      f'.hits = f.hits ∧ f'.miss = f.miss := by
  unfold BloomFilter.set at hs
  split at hs
  · obtain ⟨hr, hf⟩ := Prod.mk.injEq .. ▸ Option.some_inj.mp hs
    subst hf
    exact ⟨rfl, rfl, rfl, Or.inl rfl, rfl, rfl⟩
  · split at hs
    · exact absurd hs (by simp)
    · revert hs
      split
      · intro hs; exact absurd hs (by simp)
      · rename_i bm allbits heq
        intro hs
        obtain ⟨hr, hf⟩ := Prod.mk.injEq .. ▸ Option.some_inj.mp hs
        subst hf
        refine ⟨rfl, rfl, bfSetLoop_length heq, ?_, rfl, rfl⟩
        cases allbits <;> simp

theorem set_ok_covered {h : Hash} {x : Bytes} {f f' : BloomFilter}
    {b : Bool} (hlen : f.bitmap.length = f.capacity)
    (hs : BloomFilter.set h x f = some (Except.ok b, f')) :
    CoveredB h x f' ∧
      (∀ q, f.bitmap.getD q false = true → f'.bitmap.getD q false = true) := by
  unfold BloomFilter.set at hs
  split at hs
  · exact absurd (congrArg Prod.fst (Option.some_inj.mp hs)) (by simp)
  · rename_i hfull
    split at hs
    · exact absurd hs (by simp)
    · rename_i hguard
      revert hs
      split
      · intro hs; exact absurd hs (by simp)
      · rename_i bm allbits heq
        intro hs
        obtain ⟨hr, hf⟩ := Prod.mk.injEq .. ▸ Option.some_inj.mp hs
        subst hf
        have hkc : f.hash_count ≠ 0 → 0 < f.capacity := by
          intro hk
          rcases Nat.eq_zero_or_pos f.capacity with hc | hc
          · exact absurd ⟨hk, hc⟩ hguard
          · exact hc
        constructor
        · refine ⟨⟨?_, hkc⟩, ?_⟩
          · simpa [bfSetLoop_length heq] using hlen
          · have hpos : bfPositions h x
                { f with bitmap := bm,
                         size := if allbits then f.size + 1 else f.size } =
                bfPositions h x f := bfPositions_congr h x rfl rfl
            rw [hpos]
            exact bfSetLoop_sets heq
        · exact bfSetLoop_mono heq

theorem set_wf2 {h : Hash} {x : Bytes} {f f' : BloomFilter}
    {r : Except String Bool} (hwf : WF2 f)
    (hs : BloomFilter.set h x f = some (r, f')) : WF2 f' := by
  unfold BloomFilter.set at hs
  split at hs
  · obtain ⟨hr, hf⟩ := Prod.mk.injEq .. ▸ Option.some_inj.mp hs
    subst hf; exact hwf
  · split at hs
    · exact absurd hs (by simp)
    · revert hs
      split
      · intro hs; exact absurd hs (by simp)
      · rename_i bm allbits heq
        intro hs
        obtain ⟨hr, hf⟩ := Prod.mk.injEq .. ▸ Option.some_inj.mp hs
        subst hf
        obtain ⟨hwl, hwc⟩ := hwf
        cases allbits with
        | false =>
          refine ⟨by simpa [bfSetLoop_length heq] using hwl, ?_⟩
          show f.hash_count * f.size ≤ countTrue bm
          exact le_trans hwc (bfSetLoop_count_le heq)
        | true =>
          refine ⟨by simpa [bfSetLoop_length heq] using hwl, ?_⟩
          show f.hash_count * (f.size + 1) ≤ countTrue bm
          have hcnt := (bfSetLoop_count_of_true heq rfl).2
          rw [bfPositions_length] at hcnt
          rw [hcnt, Nat.mul_add, Nat.mul_one]
          omega

theorem check_struct {h : Hash} {x : Bytes} {f f' : BloomFilter} {b : Bool}
    (hc : BloomFilter.check h x f = some (b, f')) :
    f'.bitmap = f.bitmap ∧ f'.size = f.size ∧
      f'.capacity = f.capacity ∧ f'.hash_count = f.hash_count := by
  unfold BloomFilter.check at hc
  split at hc
  · exact absurd hc (by simp)
  · revert hc
    split
    · intro hc; exact absurd hc (by simp)
    · intro hc
      obtain ⟨hb, hf⟩ := Prod.mk.injEq .. ▸ Option.some_inj.mp hc
      subst hf; exact ⟨rfl, rfl, rfl, rfl⟩
    · intro hc
      obtain ⟨hb, hf⟩ := Prod.mk.injEq .. ▸ Option.some_inj.mp hc
      subst hf; exact ⟨rfl, rfl, rfl, rfl⟩

/-- A full stage (`size == capacity`) satisfying the counting invariant can
never answer `false` to a `check`: such a stage has `hash_count ≤ 1` and,
if `hash_count = 1`, every bit set.  This is why a second stage is never
appended to a lineage of stages built by `set` alone. -/
theorem full_check_not_false {h : Hash} {x : Bytes} {f g : BloomFilter}
    (hwf : WF2 f) (hfull : f.size = f.capacity) :
    BloomFilter.check h x f ≠ some (false, g) := by
  intro hc
  obtain ⟨hwl, hwc⟩ := hwf
  unfold BloomFilter.check at hc
  split at hc
  · exact absurd hc (by simp)
  · rename_i hguard
    rcases Nat.eq_zero_or_pos f.capacity with hcap | hcap
    · rcases Nat.eq_zero_or_pos f.hash_count with hk | hk
      · rw [show bfPositions h x f = [] by simp [bfPositions, hk]] at hc
        simp [bfCheckLoop] at hc
      · exact hguard ⟨by omega, hcap⟩
    · have hk1 : f.hash_count ≤ 1 := by
        have h1 : f.hash_count * f.capacity ≤ f.capacity := by
          calc f.hash_count * f.capacity = f.hash_count * f.size := by
                rw [hfull]
            _ ≤ countTrue f.bitmap := hwc
            _ ≤ f.bitmap.length := countTrue_le_length _
            _ = f.capacity := hwl
        by_contra hgt
        have : 2 * f.capacity ≤ f.hash_count * f.capacity :=
          Nat.mul_le_mul_right _ (by omega)
        omega
      rcases Nat.eq_zero_or_pos f.hash_count with hk | hk
      · rw [show bfPositions h x f = [] by simp [bfPositions, hk]] at hc
        simp [bfCheckLoop] at hc
      · have hkeq : f.hash_count = 1 := by omega
        have hcount : countTrue f.bitmap = f.bitmap.length := by
          have h1 : f.capacity ≤ countTrue f.bitmap := by
            calc f.capacity = 1 * f.capacity := (Nat.one_mul _).symm
              _ = f.hash_count * f.size := by rw [hkeq, hfull]
              _ ≤ countTrue f.bitmap := hwc
          have h2 := countTrue_le_length f.bitmap
          omega
        have hloop : bfCheckLoop f.bitmap (bfPositions h x f) = some true := by
          apply bfCheckLoop_true_of_all
          intro p hp
          have hplt : p < f.bitmap.length := by
            rw [hwl]; exact bfPositions_lt h x f hcap p hp
          exact ⟨hplt, getD_all_true_of_count _ hcount p hplt⟩
        rw [hloop] at hc
        simp at hc

/-! ### Scalable-filter-level machinery

`check` only touches the `hits`/`miss` counters of the stages it scans;
everything the invariants care about is captured by this projection. -/

/-- The fields of a stage that `check` leaves untouched. -/
def bfProj (f : BloomFilter) : List Bool × Nat × Nat × Nat :=
  (f.bitmap, f.size, f.capacity, f.hash_count)

theorem bfProj_bitmap {f g : BloomFilter} (hp : bfProj g = bfProj f) :
    g.bitmap = f.bitmap := congrArg Prod.fst hp

theorem bfProj_size {f g : BloomFilter} (hp : bfProj g = bfProj f) :
    g.size = f.size := congrArg (fun t => t.2.1) hp

theorem bfProj_capacity {f g : BloomFilter} (hp : bfProj g = bfProj f) :
    g.capacity = f.capacity := congrArg (fun t => t.2.2.1) hp

theorem bfProj_hash_count {f g : BloomFilter} (hp : bfProj g = bfProj f) :
    g.hash_count = f.hash_count := congrArg (fun t => t.2.2.2) hp

theorem checkable_of_proj {f g : BloomFilter} (hp : bfProj g = bfProj f)
    (hc : Checkable f) : Checkable g := by
  refine ⟨?_, ?_⟩
  · rw [bfProj_bitmap hp, bfProj_capacity hp]; exact hc.1
  · rw [bfProj_hash_count hp, bfProj_capacity hp]; exact hc.2

theorem covered_of_proj (h : Hash) (x : Bytes) {f g : BloomFilter}
    (hp : bfProj g = bfProj f) (hc : CoveredB h x f) : CoveredB h x g := by
  refine ⟨checkable_of_proj hp hc.1, ?_⟩
  rw [bfPositions_congr h x (bfProj_capacity hp) (bfProj_hash_count hp),
    bfProj_bitmap hp]
  exact hc.2

theorem wf2_of_proj {f g : BloomFilter} (hp : bfProj g = bfProj f)
    (hw : WF2 f) : WF2 g := by
  refine ⟨?_, ?_⟩
  · rw [bfProj_bitmap hp, bfProj_capacity hp]; exact hw.1
  · rw [bfProj_hash_count hp, bfProj_size hp, bfProj_bitmap hp]; exact hw.2

theorem mem_proj_transfer {fs fs' : List BloomFilter}
    (hmap : fs'.map bfProj = fs.map bfProj) :
    ∀ f ∈ fs, ∃ g ∈ fs', bfProj g = bfProj f := by
  intro f hf
  have : bfProj f ∈ fs'.map bfProj := by
    rw [hmap]; exact List.mem_map_of_mem _ hf
  obtain ⟨g, hg, he⟩ := List.mem_map.mp this
  exact ⟨g, hg, he⟩

theorem map_size_of_proj {fs fs' : List BloomFilter}
    (hmap : fs'.map bfProj = fs.map bfProj) :
    fs'.map (fun f => f.size) = fs.map (fun f => f.size) := by
  have h1 : fs'.map (fun f => f.size) =
      (fs'.map bfProj).map (fun t => t.2.1) := by
    rw [List.map_map]; rfl
  have h2 : fs.map (fun f => f.size) =
      (fs.map bfProj).map (fun t => t.2.1) := by
    rw [List.map_map]; rfl
  rw [h1, h2, hmap]

/-- Covered somewhere in the stage list: a `check` of `x` must answer
true. -/
def SCov (h : Hash) (x : Bytes) (s : ScalableBloomFilter) : Prop :=
  ∃ f ∈ s.filters, CoveredB h x f

/-- Every stage is checkable (no panic possible while scanning). -/
def SInvC (s : ScalableBloomFilter) : Prop :=
  ∀ f ∈ s.filters, Checkable f

/-- Every stage satisfies the counting invariant. -/
def SInvW (s : ScalableBloomFilter) : Prop :=
  ∀ f ∈ s.filters, WF2 f

theorem sbfCheckLoop_proj {h : Hash} {x : Bytes} {fs fs' : List BloomFilter}
    {b : Bool} (hc : sbfCheckLoop h x fs = some (b, fs')) :
    fs'.map bfProj = fs.map bfProj := by
  induction fs generalizing b fs' with
  | nil =>
    simp only [sbfCheckLoop, Option.some_inj, Prod.mk.injEq] at hc
    rw [← hc.2]
  | cons f rest ih =>
    simp only [sbfCheckLoop] at hc
    split at hc
    · exact absurd hc (by simp)
    · rename_i g hg
      obtain ⟨hb, hfs⟩ := Prod.mk.injEq .. ▸ Option.some_inj.mp hc
      subst hfs
      obtain ⟨hbm, hsz, hcap, hk⟩ := check_struct hg
      simp only [List.map_cons]
      congr 1
      simp [bfProj, hbm, hsz, hcap, hk]
    · rename_i g hg
      revert hc
      split
      · intro hc; exact absurd hc (by simp)
      · rename_i b' rest' hrest
        intro hc
        obtain ⟨hb, hfs⟩ := Prod.mk.injEq .. ▸ Option.some_inj.mp hc
        subst hfs
        obtain ⟨hbm, hsz, hcap, hk⟩ := check_struct hg
        simp only [List.map_cons]
        congr 1
        · simp [bfProj, hbm, hsz, hcap, hk]
        · exact ih hrest

theorem sbfCheckLoop_true_mem {h : Hash} {x : Bytes}
    {fs fs' : List BloomFilter}
    (hc : sbfCheckLoop h x fs = some (true, fs')) :
    ∃ f ∈ fs, ∃ g, BloomFilter.check h x f = some (true, g) := by
  induction fs generalizing fs' with
  | nil => simp [sbfCheckLoop] at hc
  | cons f rest ih =>
    simp only [sbfCheckLoop] at hc
    split at hc
    · exact absurd hc (by simp)
    · rename_i g hg
      exact ⟨f, List.mem_cons_self f rest, g, hg⟩
    · rename_i g hg
      revert hc
      split
      · intro hc; exact absurd hc (by simp)
      · rename_i b' rest' hrest
        intro hc
        obtain ⟨hb, hfs⟩ := Prod.mk.injEq .. ▸ Option.some_inj.mp hc
        rw [hb] at hrest
        obtain ⟨f', hf', hg'⟩ := ih hrest
        exact ⟨f', List.mem_cons_of_mem f hf', hg'⟩

theorem sbfCheckLoop_head_false {h : Hash} {x : Bytes}
    {f : BloomFilter} {rest fs' : List BloomFilter}
    (hc : sbfCheckLoop h x (f :: rest) = some (false, fs')) :
    ∃ g, BloomFilter.check h x f = some (false, g) := by
  simp only [sbfCheckLoop] at hc
  split at hc
  · exact absurd hc (by simp)
  · rename_i g hg
    exact absurd (congrArg Prod.fst (Option.some_inj.mp hc)) (by simp)
  · rename_i g hg
    exact ⟨g, hg⟩

theorem sbfCheckLoop_of_covered {h : Hash} {x : Bytes}
    {fs : List BloomFilter} (hinv : ∀ f ∈ fs, Checkable f)
    (hcov : ∃ f ∈ fs, CoveredB h x f) :
    ∃ fs', sbfCheckLoop h x fs = some (true, fs') := by
  induction fs with
  | nil => obtain ⟨f, hf, _⟩ := hcov; simp at hf
  | cons f rest ih =>
    obtain ⟨b, g, hg, _⟩ :=
      check_total (h := h) (x := x) (hinv f (List.mem_cons_self f rest))
    cases b with
    | true =>
      refine ⟨g :: rest, ?_⟩
      simp only [sbfCheckLoop, hg]
    | false =>
      obtain ⟨f0, hf0, hcov0⟩ := hcov
      rcases List.mem_cons.mp hf0 with rfl | hmem
      · rw [check_of_covered hcov0] at hg
        exact absurd (congrArg Prod.fst (Option.some_inj.mp hg)) (by simp)
      · obtain ⟨rest', hrest⟩ :=
          ih (fun f' hf' => hinv f' (List.mem_cons_of_mem f hf')) ⟨f0, hmem, hcov0⟩
        refine ⟨g :: rest', ?_⟩
        simp only [sbfCheckLoop, hg, hrest]

theorem sbfCheckLoop_total {h : Hash} {x : Bytes}
    {fs : List BloomFilter} (hinv : ∀ f ∈ fs, Checkable f) :
    ∃ b fs', sbfCheckLoop h x fs = some (b, fs') := by
  induction fs with
  | nil => exact ⟨false, [], rfl⟩
  | cons f rest ih =>
    obtain ⟨b, g, hg, _⟩ :=
      check_total (h := h) (x := x) (hinv f (List.mem_cons_self f rest))
    cases b with
    | true => exact ⟨true, g :: rest, by simp only [sbfCheckLoop, hg]⟩
    | false =>
      obtain ⟨b', rest', hrest⟩ :=
        ih (fun f' hf' => hinv f' (List.mem_cons_of_mem f hf'))
      exact ⟨b', g :: rest', by simp only [sbfCheckLoop, hg, hrest]⟩

/-! ### `ScalableBloomFilter.check` and `sbfGrow` lemmas -/

theorem covered_of_check_true {h : Hash} {x : Bytes} {f g : BloomFilter}
    (hcf : Checkable f) (hc : BloomFilter.check h x f = some (true, g)) :
    CoveredB h x f := by
  unfold BloomFilter.check at hc
  split at hc
  · exact absurd hc (by simp)
  · revert hc
    split
    · intro hc; exact absurd hc (by simp)
    · rename_i hloop
      intro hc
      exact ⟨hcf, fun p hp => (bfCheckLoop_all_of_true hloop p hp).2⟩
    · intro hc
      exact absurd (congrArg Prod.fst (Option.some_inj.mp hc)) (by simp)

theorem sbf_check_fields {h : Hash} {now : Int} {x : Bytes}
    {s s' : ScalableBloomFilter} {b : Bool}
    (hc : ScalableBloomFilter.check h now x s = some (b, s')) :
    s'.filters.map bfProj = s.filters.map bfProj ∧ s'.name = s.name ∧
      s'.initial_capacity = s.initial_capacity ∧ s'.fpp = s.fpp ∧
      s'.scale_factor = s.scale_factor ∧
      s'.creation_time = s.creation_time ∧ s'.last_access_time = now := by
  unfold ScalableBloomFilter.check at hc
  revert hc
  split
  · intro hc; exact absurd hc (by simp)
  · rename_i b0 fs hloop
    intro hc
    obtain ⟨hb, hs'⟩ := Prod.mk.injEq .. ▸ Option.some_inj.mp hc
    subst hs'
    refine ⟨?_, rfl, rfl, rfl, rfl, rfl, rfl⟩
    have hproj := sbfCheckLoop_proj hloop
    calc (fs.reverse.map bfProj) = (fs.map bfProj).reverse := by
          rw [List.map_reverse]
      _ = (s.filters.reverse.map bfProj).reverse := by rw [hproj]
      _ = (s.filters.map bfProj).reverse.reverse := by rw [List.map_reverse]
      _ = s.filters.map bfProj := by rw [List.reverse_reverse]

theorem sbf_check_empty {h : Hash} {now : Int} {x : Bytes}
    {s s' : ScalableBloomFilter} {b : Bool}
    (hc : ScalableBloomFilter.check h now x s = some (b, s'))
    (he : s.filters = []) : b = false := by
  unfold ScalableBloomFilter.check at hc
  rw [he] at hc
  simp only [List.reverse_nil, sbfCheckLoop] at hc
  exact (congrArg Prod.fst (Option.some_inj.mp hc)).symm

theorem sbf_check_true_scov {h : Hash} {now : Int} {x : Bytes}
    {s s' : ScalableBloomFilter} (hinv : SInvC s)
    (hc : ScalableBloomFilter.check h now x s = some (true, s')) :
    SCov h x s' := by
  have hfields := sbf_check_fields hc
  unfold ScalableBloomFilter.check at hc
  revert hc
  split
  · intro hc; exact absurd hc (by simp)
  · rename_i b0 fs hloop
    intro hc
    obtain ⟨hb, hs'⟩ := Prod.mk.injEq .. ▸ Option.some_inj.mp hc
    rw [hb] at hloop
    obtain ⟨f, hf, g, hg⟩ := sbfCheckLoop_true_mem hloop
    have hfmem : f ∈ s.filters := List.mem_reverse.mp hf
    have hcov : CoveredB h x f := covered_of_check_true (hinv f hfmem) hg
    obtain ⟨g', hg', hpe⟩ := mem_proj_transfer hfields.1 f hfmem
    exact ⟨g', hg', covered_of_proj h x hpe hcov⟩

/-- Case analysis for the stage-selection step of `set`. -/
theorem sbfGrow_cases {fns : SizeFns} {s : ScalableBloomFilter}
    {out : List BloomFilter × BloomFilter} (hg : sbfGrow fns s = some out) :
    (s.filters = [] ∧ ∃ nf,
        BloomFilter.new fns (s.initial_capacity * s.scale_factor.toNat)
          (ratMul s.fpp (mkRat 9 10)) = some nf ∧ out = ([], nf)) ∨
    (∃ f, s.filters.getLast? = some f ∧ s.filters.dropLast ++ [f] = s.filters ∧
      ((f.size = f.capacity ∧ ∃ nf,
          BloomFilter.new fns (s.initial_capacity * s.scale_factor.toNat)
            (ratMul s.fpp (mkRat 9 10)) = some nf ∧ out = (s.filters, nf)) ∨
       (f.size ≠ f.capacity ∧ out = (s.filters.dropLast, f)))) := by
  unfold sbfGrow at hg
  revert hg
  split
  · rename_i f hlast
    intro hg
    right
    refine ⟨f, hlast, List.dropLast_append_getLast? f hlast, ?_⟩
    revert hg
    split
    · rename_i hfull
      intro hg
      obtain ⟨nf, hnf, hout⟩ := Option.map_eq_some'.mp hg
      exact Or.inl ⟨hfull, nf, hnf, hout.symm⟩
    · rename_i hnotfull
      intro hg
      exact Or.inr ⟨hnotfull, (Option.some_inj.mp hg).symm⟩
  · rename_i hlast
    intro hg
    left
    obtain ⟨nf, hnf, hout⟩ := Option.map_eq_some'.mp hg
    exact ⟨List.getLast?_eq_none_iff.mp hlast, nf, hnf, hout.symm⟩

theorem new_fields {fns : SizeFns} {c : Nat} {p : ℚ} {nf : BloomFilter}
    (hn : BloomFilter.new fns c p = some nf) :
    nf.bitmap.length = nf.capacity ∧ nf.size = 0 ∧
      nf.capacity = fns.bitmapSize c p ∧
      nf.hash_count = fns.hashCount (fns.bitmapSize c p) c ∧
      countTrue nf.bitmap = 0 ∧ 0 < c ∧ 0 < p := by
  unfold BloomFilter.new at hn
  split at hn
  · rename_i hcp
    obtain rfl := Option.some_inj.mp hn.symm
    refine ⟨by simp, rfl, rfl, rfl, ?_, hcp.1, hcp.2⟩
    simp [countTrue, List.count_replicate]
  · exact absurd hn (by simp)

theorem foldl_add_size (l : List BloomFilter) (a : Nat) :
    l.foldl (fun acc f => acc + f.size) a = a + (l.map (fun f => f.size)).sum := by
  induction l generalizing a with
  | nil => simp
  | cons f rest ih => simp [List.foldl_cons, ih]; omega

theorem sbfSize_eq (s : ScalableBloomFilter) :
    ScalableBloomFilter.size s = (s.filters.map (fun f => f.size)).sum := by
  unfold ScalableBloomFilter.size
  rw [foldl_add_size]
  omega

theorem covered_preserved_set_ok {h : Hash} {x y : Bytes}
    {f f' : BloomFilter} {b : Bool} (hlen : f.bitmap.length = f.capacity)
    (hs : BloomFilter.set h x f = some (Except.ok b, f'))
    (hc : CoveredB h y f) : CoveredB h y f' := by
  obtain ⟨hcap, hk, _, _, _, _⟩ := set_fields hs
  obtain ⟨hcov', hmono⟩ := set_ok_covered hlen hs
  refine ⟨hcov'.1, ?_⟩
  rw [bfPositions_congr h y hcap hk]
  intro p hp
  exact hmono p (hc.2 p hp)

/-! ### The per-`set` step lemmas -/

/-- One `Ok` `set` keeps every stage checkable, keeps every previously
covered byte string covered, and covers the inserted byte string. -/
theorem sbf_set_ok_step {h : Hash} {fns : SizeFns} {now : Int} {x : Bytes}
    {s s' : ScalableBloomFilter} {b : Bool} (hinv : SInvC s)
    (hs : ScalableBloomFilter.set h fns now x s = some (Except.ok b, s')) :
    SInvC s' ∧ (∀ y, SCov h y s → SCov h y s') ∧ SCov h x s' := by
  unfold ScalableBloomFilter.set at hs
  have hinv1 : SInvC { s with last_access_time := now } := hinv
  revert hs
  split
  · intro hs; exact absurd hs (by simp)
  · rename_i s2 hc
    intro hs
    obtain ⟨hr, hs'⟩ := Prod.mk.injEq .. ▸ Option.some_inj.mp hs
    subst hs'
    have hfld := sbf_check_fields hc
    have hmap : s2.filters.map bfProj = s.filters.map bfProj := hfld.1
    refine ⟨?_, ?_, sbf_check_true_scov hinv1 hc⟩
    · intro g hg
      obtain ⟨f0, hf0, hpe⟩ := mem_proj_transfer hmap.symm g hg
      exact checkable_of_proj hpe.symm (hinv f0 hf0)
    · rintro y ⟨f0, hf0, hcov⟩
      obtain ⟨g, hg, hpe⟩ := mem_proj_transfer hmap f0 hf0
      exact ⟨g, hg, covered_of_proj h y hpe hcov⟩
  · rename_i s2 hc
    intro hs
    have hfld := sbf_check_fields hc
    have hmap : s2.filters.map bfProj = s.filters.map bfProj := hfld.1
    have hinv2 : SInvC s2 := by
      intro g hg
      obtain ⟨f0, hf0, hpe⟩ := mem_proj_transfer hmap.symm g hg
      exact checkable_of_proj hpe.symm (hinv f0 hf0)
    have htrans : ∀ y, SCov h y s → SCov h y s2 := by
      rintro y ⟨f0, hf0, hcov⟩
      obtain ⟨g, hg, hpe⟩ := mem_proj_transfer hmap f0 hf0
      exact ⟨g, hg, covered_of_proj h y hpe hcov⟩
    revert hs
    split
    · intro hs; exact absurd hs (by simp)
    · rename_i front f hgrow
      split
      · intro hs; exact absurd hs (by simp)
      · rename_i res f' hbset
        intro hs
        obtain ⟨hr, hs'⟩ := Prod.mk.injEq .. ▸ Option.some_inj.mp hs
        subst hs'
        rw [hr] at hbset
        rcases sbfGrow_cases hgrow with
          ⟨hemp, nf, hnf, hout⟩ | ⟨g0, hlast, happ, hcase⟩
        · obtain ⟨hfront, hf⟩ := Prod.mk.injEq .. ▸ hout
          subst hfront; subst hf
          have hflen : f.bitmap.length = f.capacity := (new_fields hnf).1
          obtain ⟨hcov', hmono⟩ := set_ok_covered hflen hbset
          refine ⟨?_, ?_, ?_⟩
          · intro g hg
            simp only [List.nil_append, List.mem_singleton] at hg
            subst hg; exact hcov'.1
          · rintro y hscov
            obtain ⟨g, hg, _⟩ := htrans y hscov
            rw [hemp] at hg
            simp at hg
          · exact ⟨f', by simp, hcov'⟩
        · have hg0mem : g0 ∈ s2.filters := by
            rw [← happ]
            exact List.mem_append_right _ (List.mem_singleton_self g0)
          rcases hcase with ⟨hfull, nf, hnf, hout⟩ | ⟨hnfull, hout⟩
          · obtain ⟨hfront, hf⟩ := Prod.mk.injEq .. ▸ hout
            subst hfront; subst hf
            have hflen : f.bitmap.length = f.capacity := (new_fields hnf).1
            obtain ⟨hcov', hmono⟩ := set_ok_covered hflen hbset
            refine ⟨?_, ?_, ?_⟩
            · intro g hg
              rcases List.mem_append.mp hg with hg | hg
              · exact hinv2 g hg
              · rw [List.mem_singleton.mp hg]; exact hcov'.1
            · rintro y hscov
              obtain ⟨g, hg, hcov⟩ := htrans y hscov
              exact ⟨g, List.mem_append_left _ hg, hcov⟩
            · exact ⟨f', List.mem_append_right _ (List.mem_singleton_self f'),
                hcov'⟩
          · obtain ⟨hfront, hf⟩ := Prod.mk.injEq .. ▸ hout
            subst hfront; subst hf
            have hflen : f.bitmap.length = f.capacity := (hinv2 f hg0mem).1
            obtain ⟨hcov', hmono⟩ := set_ok_covered hflen hbset
            refine ⟨?_, ?_, ?_⟩
            · intro g hg
              rcases List.mem_append.mp hg with hg | hg
              · refine hinv2 g ?_
                rw [← happ]
                exact List.mem_append_left _ hg
              · rw [List.mem_singleton.mp hg]; exact hcov'.1
            · rintro y hscov
              obtain ⟨g, hg, hcov⟩ := htrans y hscov
              rw [← happ] at hg
              rcases List.mem_append.mp hg with hg | hg
              · exact ⟨g, List.mem_append_left _ hg, hcov⟩
              · rw [List.mem_singleton.mp hg] at hcov
                exact ⟨f', List.mem_append_right _ (List.mem_singleton_self f'),
                  covered_preserved_set_ok hflen hbset hcov⟩
            · exact ⟨f', List.mem_append_right _ (List.mem_singleton_self f'),
                hcov'⟩

/-- One completed `set` call (whatever its `Result`) keeps the counting
invariant, leaves exactly one stage when there was none and the same
number otherwise (a second stage can never be appended to a lineage of
stages maintained by `set` alone: a full stage has all bits set, so
`check` short-circuits before the growth branch), and grows the aggregate
size by at most one. -/
theorem sbf_set_count_step {h : Hash} {fns : SizeFns} {now : Int}
    {x : Bytes} {s s' : ScalableBloomFilter} {r : Except String Bool}
    (hinv : SInvW s)
    (hs : ScalableBloomFilter.set h fns now x s = some (r, s')) :
    SInvW s' ∧
      s'.filters.length = (if s.filters.length = 0 then 1
        else s.filters.length) ∧
      ScalableBloomFilter.size s' ≤ ScalableBloomFilter.size s + 1 := by
  unfold ScalableBloomFilter.set at hs
  revert hs
  split
  · intro hs; exact absurd hs (by simp)
  · rename_i s2 hc
    intro hs
    obtain ⟨hr, hs'⟩ := Prod.mk.injEq .. ▸ Option.some_inj.mp hs
    subst hs'
    have hfld := sbf_check_fields hc
    have hmap : s2.filters.map bfProj = s.filters.map bfProj := hfld.1
    have hlen : s2.filters.length = s.filters.length := by
      have := congrArg List.length hmap
      simpa using this
    have hne : s.filters.length ≠ 0 := by
      intro h0
      have hsempty : s.filters = [] := List.length_eq_zero.mp h0
      have := sbf_check_empty hc hsempty
      simp at this
    refine ⟨?_, by rw [if_neg hne]; exact hlen, ?_⟩
    · intro g hg
      obtain ⟨f0, hf0, hpe⟩ := mem_proj_transfer hmap.symm g hg
      exact wf2_of_proj hpe.symm (hinv f0 hf0)
    · rw [sbfSize_eq, sbfSize_eq, map_size_of_proj hmap]
      omega
  · rename_i s2 hc
    intro hs
    have hfld := sbf_check_fields hc
    have hmap : s2.filters.map bfProj = s.filters.map bfProj := hfld.1
    have hlen2 : s2.filters.length = s.filters.length := by
      have := congrArg List.length hmap
      simpa using this
    have hsz2 : ScalableBloomFilter.size s2 = ScalableBloomFilter.size s := by
      rw [sbfSize_eq, sbfSize_eq, map_size_of_proj hmap]
    have hinv2 : SInvW s2 := by
      intro g hg
      obtain ⟨f0, hf0, hpe⟩ := mem_proj_transfer hmap.symm g hg
      exact wf2_of_proj hpe.symm (hinv f0 hf0)
    revert hs
    split
    · intro hs; exact absurd hs (by simp)
    · rename_i front f hgrow
      split
      · intro hs; exact absurd hs (by simp)
      · rename_i res f' hbset
        intro hs
        obtain ⟨hr, hs'⟩ := Prod.mk.injEq .. ▸ Option.some_inj.mp hs
        subst hs'
        rcases sbfGrow_cases hgrow with
          ⟨hemp, nf, hnf, hout⟩ | ⟨g0, hlast, happ, hcase⟩
        · obtain ⟨hfront, hf⟩ := Prod.mk.injEq .. ▸ hout
          subst hfront; subst hf
          have hsempty : s.filters = [] := by
            rw [hemp] at hmap
            exact (List.map_eq_nil_iff.mp hmap.symm)
          obtain ⟨hnlen, hnsz, _, _, hncnt, _, _⟩ := new_fields hnf
          have hwf' : WF2 f' :=
            set_wf2 ⟨hnlen, by rw [hnsz, hncnt]; simp⟩ hbset
          obtain ⟨_, _, _, hsz', _, _⟩ := set_fields hbset
          refine ⟨?_, ?_, ?_⟩
          · intro g hg
            simp only [List.nil_append, List.mem_singleton] at hg
            subst hg; exact hwf'
          · simp [hsempty]
          · rw [sbfSize_eq, sbfSize_eq, hsempty]
            simp only [List.nil_append, List.map_cons, List.map_nil,
              List.sum_cons, List.sum_nil, List.map_nil]
            omega
        · -- a last stage exists in s2
          rcases hcase with ⟨hfull, nf, hnf, hout⟩ | ⟨hnfull, hout⟩
          · -- full last stage: impossible, check would have answered true
            exfalso
            have hlastmap := List.getLast?_map bfProj s2.filters
            rw [hmap, hlast, List.getLast?_map] at hlastmap
            simp only [Option.map_some'] at hlastmap
            obtain ⟨f0, hf0, hpe⟩ := Option.map_eq_some'.mp hlastmap
            have happ0 : s.filters.dropLast ++ [f0] = s.filters :=
              List.dropLast_append_getLast? f0 hf0
            have hf0mem : f0 ∈ s.filters := by
              rw [← happ0]
              exact List.mem_append_right _ (List.mem_singleton_self f0)
            have hwf0 : WF2 f0 := hinv f0 hf0mem
            have hfull0 : f0.size = f0.capacity := by
              rw [bfProj_size hpe, bfProj_capacity hpe]
              exact hfull
            unfold ScalableBloomFilter.check at hc
            revert hc
            split
            · intro hc; exact absurd hc (by simp)
            · rename_i b0 fs hloop
              intro hc
              obtain ⟨hb, _⟩ := Prod.mk.injEq .. ▸ Option.some_inj.mp hc
              rw [hb] at hloop
              have hrev : ({ s with last_access_time := now } :
                  ScalableBloomFilter).filters.reverse =
                  f0 :: s.filters.dropLast.reverse := by
                show s.filters.reverse = f0 :: s.filters.dropLast.reverse
                rw [← happ0, List.reverse_append]
                simp
              rw [hrev] at hloop
              obtain ⟨g, hg⟩ := sbfCheckLoop_head_false hloop
              exact full_check_not_false hwf0 hfull0 hg
          · obtain ⟨hfront, hf⟩ := Prod.mk.injEq .. ▸ hout
            subst hfront; subst hf
            have hg0mem : f ∈ s2.filters := by
              rw [← happ]
              exact List.mem_append_right _ (List.mem_singleton_self f)
            have hwf' : WF2 f' := set_wf2 (hinv2 f hg0mem) hbset
            obtain ⟨_, _, _, hsz', _, _⟩ := set_fields hbset
            have hlen3 : s2.filters.dropLast.length + 1 = s2.filters.length := by
              have := congrArg List.length happ
              simpa using this
            refine ⟨?_, ?_, ?_⟩
            · intro g hg
              rcases List.mem_append.mp hg with hg | hg
              · refine hinv2 g ?_
                rw [← happ]
                exact List.mem_append_left _ hg
              · rw [List.mem_singleton.mp hg]; exact hwf'
            · have hne : s.filters.length ≠ 0 := by omega
              rw [if_neg hne]
              simp only [List.length_append, List.length_singleton]
              omega
            · have hs2sum : ScalableBloomFilter.size s2 =
                  (s2.filters.dropLast.map (fun f => f.size)).sum + f.size := by
                rw [sbfSize_eq, ← happ]
                simp
              rw [sbfSize_eq]
              simp only [List.map_append, List.map_cons, List.map_nil,
                List.sum_append, List.sum_cons, List.sum_nil]
              omega

/-! ### Folding whole insertion sequences -/

theorem sbfRunOk_covered {h : Hash} {fns : SizeFns} {now : Int} :
    ∀ {S : List Bytes} {s s' : ScalableBloomFilter}, SInvC s →
      sbfRunOk h fns now S s = some s' →
      SInvC s' ∧ (∀ y, SCov h y s → SCov h y s') ∧ ∀ x ∈ S, SCov h x s' := by
  intro S
  induction S with
  | nil =>
    intro s s' hinv hrun
    obtain rfl := Option.some_inj.mp hrun
    exact ⟨hinv, fun y hy => hy, by simp⟩
  | cons x xs ih =>
    intro s s' hinv hrun
    unfold sbfRunOk at hrun
    revert hrun
    split
    · rename_i s1 hstep
      intro hrun
      obtain ⟨hinv1, htrans1, hcov1⟩ := sbf_set_ok_step hinv hstep
      obtain ⟨hinv', htrans', hcov'⟩ := ih hinv1 hrun
      refine ⟨hinv', fun y hy => htrans' y (htrans1 y hy), ?_⟩
      intro z hz
      rcases List.mem_cons.mp hz with rfl | hmem
      · exact htrans' z hcov1
      · exact hcov' z hmem
    · rename_i hne
      intro hrun
      exact absurd hrun (by simp)

theorem bfRunOk_covered {h : Hash} :
    ∀ {S : List Bytes} {f f' : BloomFilter},
      f.bitmap.length = f.capacity → bfRunOk h S f = some f' →
      f'.bitmap.length = f'.capacity ∧
        (∀ y, CoveredB h y f → CoveredB h y f') ∧
        ∀ x ∈ S, CoveredB h x f' := by
  intro S
  induction S with
  | nil =>
    intro f f' hlen hrun
    obtain rfl := Option.some_inj.mp hrun
    exact ⟨hlen, fun y hy => hy, by simp⟩
  | cons x xs ih =>
    intro f f' hlen hrun
    unfold bfRunOk at hrun
    revert hrun
    split
    · rename_i b f1 hstep
      intro hrun
      obtain ⟨hcov1, _⟩ := set_ok_covered hlen hstep
      obtain ⟨hcap, hk, hlen1, _, _, _⟩ := set_fields hstep
      have hlen1' : f1.bitmap.length = f1.capacity := by
        rw [hlen1, hcap]; exact hlen
      obtain ⟨hlen', htrans', hcov'⟩ := ih hlen1' hrun
      refine ⟨hlen', ?_, ?_⟩
      · intro y hy
        exact htrans' y (covered_preserved_set_ok hlen hstep hy)
      · intro z hz
        rcases List.mem_cons.mp hz with rfl | hmem
        · exact htrans' z hcov1
        · exact hcov' z hmem
    · rename_i hne
      intro hrun
      exact absurd hrun (by simp)

theorem sbfRun_count {h : Hash} {fns : SizeFns} {now : Int} :
    ∀ {S : List Bytes} {s s' : ScalableBloomFilter}, SInvW s →
      sbfRun h fns now S s = some s' →
      SInvW s' ∧
        s'.filters.length = (if s.filters.length = 0 ∧ S ≠ [] then 1
          else s.filters.length) ∧
        ScalableBloomFilter.size s' ≤ ScalableBloomFilter.size s + S.length := by
  intro S
  induction S with
  | nil =>
    intro s s' hinv hrun
    obtain rfl := Option.some_inj.mp hrun
    simp [hinv]
  | cons x xs ih =>
    intro s s' hinv hrun
    unfold sbfRun at hrun
    revert hrun
    split
    · rename_i r s1 hstep
      intro hrun
      obtain ⟨hinv1, hlen1, hsz1⟩ := sbf_set_count_step hinv hstep
      obtain ⟨hinv', hlen', hsz'⟩ := ih hinv1 hrun
      refine ⟨hinv', ?_, ?_⟩
      · rw [hlen']
        by_cases h0 : s.filters.length = 0
        · rw [hlen1, if_pos h0]
          simp [h0]
        · rw [hlen1, if_neg h0]
          rw [if_neg (by simp [h0]), if_neg (by simp [h0])]
      · simp only [List.length_cons]
        omega
    · intro hrun
      exact absurd hrun (by simp)

theorem sbf_check_of_scov {h : Hash} {now : Int} {x : Bytes}
    {s : ScalableBloomFilter} (hinv : SInvC s) (hcov : SCov h x s) :
    ∃ s'', ScalableBloomFilter.check h now x s = some (true, s'') := by
  have hinvr : ∀ f ∈ s.filters.reverse, Checkable f := by
    intro f hf
    exact hinv f (List.mem_reverse.mp hf)
  have hcovr : ∃ f ∈ s.filters.reverse, CoveredB h x f := by
    obtain ⟨f, hf, hcf⟩ := hcov
    exact ⟨f, List.mem_reverse.mpr hf, hcf⟩
  obtain ⟨fs', hloop⟩ := sbfCheckLoop_of_covered hinvr hcovr
  refine ⟨{ s with last_access_time := now, filters := fs'.reverse }, ?_⟩
  unfold ScalableBloomFilter.check
  rw [hloop]

/-! ### Shared concrete instances used by witnesses and counterexamples -/

/-- A concrete hash: the first byte, ignoring the seed. -/
def hW : Hash := fun bytes _ => bytes.headD 0

/-- A concrete hash: the seed, ignoring the bytes. -/
def hSeed : Hash := fun _ i => i

/-- Concrete sizing functions: bitmap size = requested capacity, one hash. -/
def fnsW : SizeFns := ⟨fun n _ => n, fun _ _ => 1⟩

/-- Concrete sizing functions that expose the `fpp` argument a stage was
constructed with through its `capacity` field (the denominator of the
exact rational `fpp`). -/
def fnsC4 : SizeFns := ⟨fun _ q => q.den, fun _ _ => 1⟩

/-- The scalable-filter state produced by
`sbfRunOk hW fnsW 0 [[0],[1]] (ScalableBloomFilter.new "t" 2 (1/2) small 0)`. -/
def sW : ScalableBloomFilter :=
  { name := "t", initial_capacity := 2
    filters := [{ capacity := 4, size := 2,
                  bitmap := [true, true, false, false],
                  hash_count := 1, hits := 0, miss := 1 }]
    fpp := mkRat 1 2, scale_factor := .smallScaleSize
    creation_time := 0, last_access_time := 0 }

/-- `BloomFilter.new fnsW 2 (1/2)`. -/
def fW0 : BloomFilter :=
  { capacity := 2, size := 0, bitmap := [false, false], hash_count := 1,
    hits := 0, miss := 0 }

/-- `fW0` after `set [0]` and `set [1]` (hash `hW`). -/
def fW2 : BloomFilter :=
  { capacity := 2, size := 2, bitmap := [true, true], hash_count := 1,
    hits := 0, miss := 0 }

/-! ### Claim C1 -/

/-- C1 — No false negatives.  For every `ScalableBloomFilter` freshly
constructed with any parameters and every finite sequence `S` of byte
strings, if every `set(x)` for `x ∈ S` returned `Ok` (and no `clear`
occurred), then `check(x)` returns `true` for every `x ∈ S` afterwards;
likewise, for a single `BloomFilter`, after a sequence of `Ok` `set`s every
inserted byte string `check`s `true`.  Both statements hold for every hash
family and every sizing function. -/
theorem C1_theorem :
    (∀ (h : Hash) (fns : SizeFns) (nm : String) (cap : Nat) (p : ℚ)
        (sf : ScaleFactor) (t0 now : Int) (S : List Bytes)
        (s' : ScalableBloomFilter),
      sbfRunOk h fns now S (ScalableBloomFilter.new nm cap p sf t0) =
          some s' →
      ∀ x ∈ S, ∃ s'',
        ScalableBloomFilter.check h now x s' = some (true, s'')) ∧
    (∀ (h : Hash) (fns : SizeFns) (cap : Nat) (p : ℚ)
        (f0 f' : BloomFilter) (S : List Bytes),
      BloomFilter.new fns cap p = some f0 →
      bfRunOk h S f0 = some f' →
      ∀ x ∈ S, ∃ f'', BloomFilter.check h x f' = some (true, f'')) := by
  constructor
  · intro h fns nm cap p sf t0 now S s' hrun x hx
    have hinv0 : SInvC (ScalableBloomFilter.new nm cap p sf t0) := by
      intro f hf
      simp [ScalableBloomFilter.new] at hf
    obtain ⟨hinv', _, hcov'⟩ := sbfRunOk_covered hinv0 hrun
    exact sbf_check_of_scov hinv' (hcov' x hx)
  · intro h fns cap p f0 f' S hnew hrun x hx
    obtain ⟨_, _, hcov'⟩ := bfRunOk_covered (new_fields hnew).1 hrun
    exact ⟨_, check_of_covered (hcov' x hx)⟩

/-- Witness for C1: a concrete two-element insertion run on both a
scalable filter and a primitive filter, with both checks answering true. -/
theorem C1_witness :
    (∃ s'', ScalableBloomFilter.check hW 0 [0] sW = some (true, s'')) ∧
    (∃ f'', BloomFilter.check hW [0] fW2 = some (true, f'')) :=
  ⟨C1_theorem.1 hW fnsW "t" 2 (mkRat 1 2) ScaleFactor.smallScaleSize 0 0
      [[0], [1]] sW (by decide) [0] (by decide),
   C1_theorem.2 hW fnsW 2 (mkRat 1 2) fW0 fW2 [[0], [1]] (by decide) (by decide)
      [0] (by decide)⟩

/-! ### Claim C2 -/

/-- The filter of the C2 counterexample: capacity 2, `size` 0,
bits `[0, 1]` mixed, two hash seeds hitting positions 0 and 1. -/
def bfC2 : BloomFilter :=
  { capacity := 2, size := 0, bitmap := [false, true], hash_count := 2,
    hits := 0, miss := 0 }

/-- C2 — counterexample.  The claim says `set(x)` returns `Ok(true)` iff
ALL `k` positions were already 1 and increments `size` iff at least one
position was 0.  Here position 0 holds 0 and position 1 holds 1, so the
claim demands `Ok(false)` and `size = 1`; the code (its `allbits` flag
flips as soon as one examined bit IS set) returns `Ok(true)` and leaves
`size = 0`. -/
theorem C2_counterexample :
    bfPositions hSeed [0] bfC2 = [0, 1] ∧
    bfC2.bitmap.getD 0 false = false ∧
    bfC2.bitmap.getD 1 false = true ∧
    bfC2.size < bfC2.capacity ∧
    BloomFilter.set hSeed [0] bfC2 =
      some (Except.ok true,
        { capacity := 2, size := 0, bitmap := [true, true], hash_count := 2,
          hits := 0, miss := 0 }) := by
  refine ⟨by decide, by decide, by decide, by decide, by decide⟩

/-- C2 (amended) — For every `BloomFilter` whose bitmap has exactly
`capacity` entries, with `size < capacity`, and whose `k` computed
positions are pairwise distinct, `set(x)` returns `Ok(b)` where `b` is
true iff AT LEAST ONE position was already 1 before the call (not "all",
as claimed), and `size` grows by 1 iff ALL positions were 0 before the
call (not "at least one"); `size` never changes otherwise. -/
theorem C2_theorem (h : Hash) (x : Bytes) (f : BloomFilter)
    (hlen : f.bitmap.length = f.capacity) (hsz : f.size < f.capacity)
    (hnd : (bfPositions h x f).Nodup) :
    ∃ b f', BloomFilter.set h x f = some (Except.ok b, f') ∧
      (b = true ↔ ∃ p ∈ bfPositions h x f, f.bitmap.getD p false = true) ∧
      (f'.size = f.size + 1 ↔
        ∀ p ∈ bfPositions h x f, f.bitmap.getD p false = false) ∧
      (f'.size = f.size ∨ f'.size = f.size + 1) := by
  have hcap : 0 < f.capacity := by omega
  have hbound : ∀ p ∈ bfPositions h x f, p < f.bitmap.length := by
    rw [hlen]; exact bfPositions_lt h x f hcap
  obtain ⟨⟨bm, ab⟩, hloop⟩ := bfSetLoop_total hbound true
  have hnotfull : ¬ f.size = f.capacity := by omega
  have hguard : ¬(f.hash_count ≠ 0 ∧ f.capacity = 0) := by
    rintro ⟨_, hc0⟩; omega
  have hiff := bfSetLoop_nodup_iff hnd hloop
  refine ⟨!ab,
    { f with bitmap := bm, size := if ab then f.size + 1 else f.size },
    ?_, ?_, ?_, ?_⟩
  · simp [BloomFilter.set, hnotfull, hguard, hloop]
  · cases ab with
    | true =>
      refine iff_of_false (by simp) ?_
      rintro ⟨p, hp, ht⟩
      have := hiff.mp rfl p hp
      rw [ht] at this
      simp at this
    | false =>
      refine iff_of_true (by simp) ?_
      have hnall : ¬ ∀ p ∈ bfPositions h x f, f.bitmap.getD p false = false := by
        intro hall
        have := hiff.mpr hall
        simp at this
      push_neg at hnall
      obtain ⟨p, hp, hne⟩ := hnall
      refine ⟨p, hp, ?_⟩
      cases hv : f.bitmap.getD p false with
      | false => exact absurd hv hne
      | true => rfl
  · cases ab with
    | true =>
      exact iff_of_true (by simp) (hiff.mp rfl)
    | false =>
      refine iff_of_false (by simp) ?_
      intro hall
      have := hiff.mpr hall
      simp at this
  · cases ab <;> simp

/-- Witness for C2 (amended): an all-zero two-bit filter with one
position; the insertion answers `Ok(false)` and bumps `size`. -/
theorem C2_witness :
    ∃ b f', BloomFilter.set hW [5] fW0 = some (Except.ok b, f') ∧
      (b = true ↔ ∃ p ∈ bfPositions hW [5] fW0,
        fW0.bitmap.getD p false = true) ∧
      (f'.size = fW0.size + 1 ↔
        ∀ p ∈ bfPositions hW [5] fW0, fW0.bitmap.getD p false = false) ∧
      (f'.size = fW0.size ∨ f'.size = fW0.size + 1) :=
  C2_theorem hW [5] fW0 (by decide) (by decide) (by decide)

/-! ### Claim C3 -/

/-- C3 — the code, evaluated at the failing input.  `clear` on a
2-bit filter leaves an EMPTY bitmap (length 0, not `capacity` zeroed
entries: `BitVec::clear` removes all bits), and the next `check` panics
on an out-of-bounds bit index (`none`), whereas the same `check` on the
fresh filter returns `false` as the claim expects after a `clear`. -/
theorem C3_theorem :
    (BloomFilter.clear fW0).bitmap = [] ∧
    (BloomFilter.clear fW0).capacity = 2 ∧
    (BloomFilter.clear fW0).size = 0 ∧
    BloomFilter.check hW [0] (BloomFilter.clear fW0) = none ∧
    BloomFilter.check hW [0] fW0 = some (false, { fW0 with miss := 1 }) := by
  refine ⟨by decide, by decide, by decide, by decide, by decide⟩

/-! ### Claim C4 -/

/-- C4 (amended) — whenever a `set` call appends a stage (at ANY index),
the appended stage is constructed by
`BloomFilter::new(initial_capacity * scale_factor, fpp * 0.9)`:
the tightening ratio is applied exactly once to the filter's stored
`fpp`, never compounded per stage index (the `fpp` field is never
updated). -/
theorem C4_theorem (h : Hash) (fns : SizeFns) (now : Int) (x : Bytes)
    (s s' : ScalableBloomFilter) (r : Except String Bool)
    (hs : ScalableBloomFilter.set h fns now x s = some (r, s'))
    (hgrew : s'.filters.length = s.filters.length + 1) :
    ∃ nf f', BloomFilter.new fns (s.initial_capacity * s.scale_factor.toNat)
        (s.fpp * mkRat 9 10) = some nf ∧
      BloomFilter.set h x nf = some (r, f') ∧
      s'.filters.getLast? = some f' := by
  rw [← ratMul_mul]
  unfold ScalableBloomFilter.set at hs
  revert hs
  split
  · intro hs; exact absurd hs (by simp)
  · rename_i s2 hc
    intro hs
    obtain ⟨hr, hs'⟩ := Prod.mk.injEq .. ▸ Option.some_inj.mp hs
    subst hs'
    have hmap : s2.filters.map bfProj = s.filters.map bfProj :=
      (sbf_check_fields hc).1
    have hlen : s2.filters.length = s.filters.length := by
      have := congrArg List.length hmap
      simpa using this
    omega
  · rename_i s2 hc
    intro hs
    have hfld := sbf_check_fields hc
    have hmap : s2.filters.map bfProj = s.filters.map bfProj := hfld.1
    have hlen2 : s2.filters.length = s.filters.length := by
      have := congrArg List.length hmap
      simpa using this
    have hic : s2.initial_capacity = s.initial_capacity := hfld.2.2.1
    have hfpp : s2.fpp = s.fpp := hfld.2.2.2.1
    have hsf : s2.scale_factor = s.scale_factor := hfld.2.2.2.2.1
    revert hs
    split
    · intro hs; exact absurd hs (by simp)
    · rename_i front f hgrow
      split
      · intro hs; exact absurd hs (by simp)
      · rename_i res f' hbset
        intro hs
        obtain ⟨hr, hs'⟩ := Prod.mk.injEq .. ▸ Option.some_inj.mp hs
        subst hs'
        rw [hr] at hbset
        rcases sbfGrow_cases hgrow with
          ⟨hemp, nf, hnf, hout⟩ | ⟨g0, hlast, happ, hcase⟩
        · obtain ⟨hfront, hf⟩ := Prod.mk.injEq .. ▸ hout
          subst hfront; subst hf
          rw [hic, hfpp, hsf] at hnf
          exact ⟨f, f', hnf, hbset, by simp⟩
        · rcases hcase with ⟨hfull, nf, hnf, hout⟩ | ⟨hnfull, hout⟩
          · obtain ⟨hfront, hf⟩ := Prod.mk.injEq .. ▸ hout
            subst hfront; subst hf
            rw [hic, hfpp, hsf] at hnf
            refine ⟨f, f', hnf, hbset, ?_⟩
            simp only at hgrew ⊢
            exact List.getLast?_concat _
          · obtain ⟨hfront, hf⟩ := Prod.mk.injEq .. ▸ hout
            subst hfront; subst hf
            exfalso
            have hlen3 : s2.filters.dropLast.length + 1 =
                s2.filters.length := by
              have := congrArg List.length happ
              simpa using this
            simp only [List.length_append, List.length_singleton] at hgrew
            omega

/-- A scalable filter holding one FULL stage (`size == capacity`) whose
bits are nevertheless not all set.  Such states are reachable through
`ScalableBloomFilter::from_file` (the on-disk decoding imposes no
invariant on the stored fields); they make `set` append a stage at index
1. -/
def sFullC4 : ScalableBloomFilter :=
  { name := "t", initial_capacity := 5
    filters := [{ capacity := 2, size := 2, bitmap := [false, false],
                  hash_count := 1, hits := 0, miss := 0 }]
    fpp := mkRat 1 10, scale_factor := .smallScaleSize
    creation_time := 0, last_access_time := 0 }

/-- C4 — counterexample.  `sFullC4` has `fpp p₀ = 1/10` and one full
stage, so the next `set` appends the stage with index 1.  With sizing
functions that store the construction-time `fpp`'s denominator in the
stage's `capacity` field, the appended stage records capacity 100: it was
built with `p₀ · 0.9 = 9/100`, not with `p₀ · 0.9² = 81/1000` (which
would record 1000) as the claim demands for `i = 1`. -/
theorem C4_counterexample :
    (ScalableBloomFilter.set hW fnsC4 0 [0] sFullC4).map
        (fun r => (r.2.filters.length,
          r.2.filters.getLast?.map (fun f => f.capacity))) =
      some (2, some 100) ∧
    fnsC4.bitmapSize 10 (ratMul (mkRat 1 10) (mkRat 9 10)) = 100 ∧
    mkRat 1 10 * (mkRat 9 10) ^ 2 = mkRat 81 1000 ∧
    fnsC4.bitmapSize 10 (mkRat 81 1000) = 1000 ∧
    (100 : Nat) ≠ 1000 := by
  refine ⟨by decide, by decide, ?_, by decide, by decide⟩
  rw [pow_two, ← ratMul_mul, ← ratMul_mul]
  decide

/-- The state after the first `set` on a fresh `(2, 1/2, small)` scalable
filter with hash `hW` and sizing `fnsW`. -/
def sAfterW : ScalableBloomFilter :=
  { name := "t", initial_capacity := 2
    filters := [{ capacity := 4, size := 1,
                  bitmap := [true, false, false, false],
                  hash_count := 1, hits := 0, miss := 0 }]
    fpp := mkRat 1 2, scale_factor := .smallScaleSize
    creation_time := 0, last_access_time := 0 }

/-- Witness for C4 (amended): the first append on a fresh filter is
constructed with `fpp · 0.9`. -/
theorem C4_witness :
    ∃ nf f', BloomFilter.new fnsW (2 * 2) (mkRat 1 2 * mkRat 9 10) =
        some nf ∧
      BloomFilter.set hW [0] nf = some (Except.ok false, f') ∧
      sAfterW.filters.getLast? = some f' :=
  C4_theorem hW fnsW 0 [0]
    (ScalableBloomFilter.new "t" 2 (mkRat 1 2) .smallScaleSize 0) sAfterW
    (Except.ok false) (by decide) (by decide)

/-! ### Claim C5 -/

/-- C5 — counterexample.  Ten distinct byte strings `[0] … [9]` inserted
into a fresh `(5, 0.01, small)` scalable filter (concrete hash `hW`,
concrete sizing `fnsW`) leave `filter_count = 1`, not 2 as the claim
demands: a stage lineage maintained by `set` alone never appends a second
stage. -/
theorem C5_counterexample :
    (sbfRun hW fnsW 0 [[0], [1], [2], [3], [4], [5], [6], [7], [8], [9]]
        (ScalableBloomFilter.new "test-sbf" 5 (mkRat 1 100)
          .smallScaleSize 0)).map
      (fun s => (s.filter_count, s.size)) = some (1, 10) ∧
    (1 : Nat) ≠ 2 :=
  ⟨by decide, by decide⟩

/-- C5 (amended) — For EVERY hash family, every sizing function and every
fpp, after 10 insertions (each completing without panic) into a fresh
`(5, fpp, small)` scalable filter, `filter_count()` is 1 (not 2) and
`size()` is at most 10 (not necessarily 10: `size` only grows when every
examined bit was still 0). -/
theorem C5_theorem (h : Hash) (fns : SizeFns) (nm : String) (p : ℚ)
    (t0 now : Int) (S : List Bytes) (s' : ScalableBloomFilter)
    (hlen : S.length = 10)
    (hrun : sbfRun h fns now S
      (ScalableBloomFilter.new nm 5 p .smallScaleSize t0) = some s') :
    s'.filter_count = 1 ∧ s'.size ≤ 10 := by
  have hinv0 : SInvW (ScalableBloomFilter.new nm 5 p .smallScaleSize t0) := by
    intro f hf
    simp [ScalableBloomFilter.new] at hf
  obtain ⟨_, hlen', hsz'⟩ := sbfRun_count hinv0 hrun
  have hSne : S ≠ [] := by
    intro he
    rw [he] at hlen
    simp at hlen
  constructor
  · unfold ScalableBloomFilter.filter_count
    rw [hlen']
    simp [ScalableBloomFilter.new, hSne]
  · have h0 : ScalableBloomFilter.size
        (ScalableBloomFilter.new nm 5 p .smallScaleSize t0) = 0 := rfl
    omega

/-- The state after the ten insertions of the C5 witness run. -/
def s5W : ScalableBloomFilter :=
  { name := "test-sbf", initial_capacity := 5
    filters := [{ capacity := 10, size := 10,
                  bitmap := [true, true, true, true, true, true, true, true,
                             true, true],
                  hash_count := 1, hits := 0, miss := 9 }]
    fpp := mkRat 1 100, scale_factor := .smallScaleSize
    creation_time := 0, last_access_time := 0 }

/-- Witness for C5 (amended), at the concrete ten-element run. -/
theorem C5_witness : s5W.filter_count = 1 ∧ s5W.size ≤ 10 :=
  C5_theorem hW fnsW "test-sbf" (mkRat 1 100) 0 0
    [[0], [1], [2], [3], [4], [5], [6], [7], [8], [9]] s5W
    (by decide) (by decide)

/-! ### The server (src/server.rs)

`HashMap` and `HashSet` are association lists / lists (iteration order is
unspecified in Rust; the model fixes insertion order).  `ServerState`
bundles the `FilterDatabase` fields with `disk`, a model of the `rublo/`
data directory keyed by file stem; disk writes always succeed.  A request
whose handling panics is `none`; the partial in-place mutation of a
single resident filter before such a panic is not modelled (it never
changes the name sets). -/

/-- `key.as_bytes()`. -/
def strToBytes (s : String) : Bytes := s.data.map Char.toNat

def mapGet {α : Type} (m : List (String × α)) (k : String) : Option α :=
  (m.find? (fun p => p.1 == k)).map (fun p => p.2)

def mapInsert {α : Type} (m : List (String × α)) (k : String) (v : α) :
    List (String × α) :=
  if m.any (fun p => p.1 == k) then
    m.map (fun p => if p.1 == k then (k, v) else p)
  else m ++ [(k, v)]

def mapRemove {α : Type} (m : List (String × α)) (k : String) :
    List (String × α) :=
  m.filter (fun p => !(p.1 == k))

def mapContains {α : Type} (m : List (String × α)) (k : String) : Bool :=
  m.any (fun p => p.1 == k)

/-- `HashMap::entry(k).or_insert(v)`. -/
def entryOrInsert {α : Type} (m : List (String × α)) (k : String) (v : α) :
    List (String × α) :=
  if m.any (fun p => p.1 == k) then m else m ++ [(k, v)]

def setInsert (s : List String) (k : String) : List String :=
  if s.contains k then s else s ++ [k]

def setRemove (s : List String) (k : String) : List String :=
  s.filter (fun x => !(x == k))

/-- Splitting a character list at every occurrence of `sep`
(`str::split` semantics: empty fields are kept, the empty input yields
one empty field). -/
def splitCharsOn (sep : Char) : List Char → List (List Char)
  | [] => [[]]
  | c :: cs =>
    match splitCharsOn sep cs with
    | [] => if c = sep then [[], []] else [[c]]
    | t :: ts => if c = sep then [] :: t :: ts else (c :: t) :: ts

/-- A non-empty all-digit character list as a number. -/
def digitsToNat? (cs : List Char) : Option Nat :=
  if cs = [] then none
  else if cs.all (fun c => c.isDigit) then
    some (cs.foldl (fun a c => a * 10 + (c.toNat - 48)) 0)
  else none

/-- `s.parse::<usize>()`: optional leading `+`, decimal digits, value
below `2^64` (64-bit `usize`). -/
def parseUsize (s : String) : Option Nat :=
  let cs := if s.data.head? = some '+' then s.data.tail else s.data
  match digitsToNat? cs with
  | some v => if v < 2 ^ 64 then some v else none
  | none => none

/-- `s.parse::<f64>()`, simplified to plain decimal literals with an
optional sign and returning the exact rational (IEEE-754 rounding,
exponent forms, `inf`/`nan` are not modelled; no claim exercises this
beyond "parses" / "does not parse"). -/
def parseF64 (s : String) : Option ℚ :=
  let sgn : Int := if s.data.head? = some '-' then -1 else 1
  let cs := if s.data.head? = some '-' ∨ s.data.head? = some '+' then
    s.data.tail else s.data
  match splitCharsOn '.' cs with
  | [a] => (digitsToNat? a).map (fun n => mkRat (sgn * n) 1)
  | [a, b] =>
    match digitsToNat? a, digitsToNat? b with
    | some na, some nb =>
      some (mkRat (sgn * (na * 10 ^ b.length + nb)) (10 ^ b.length))
    | _, _ => none
  | _ => none

/-- `enum Request` of src/server.rs. -/
inductive Request where
  | create (name : String) (capacity : Nat) (fpp : ℚ)
  | set (name key : String)
  | check (name key : String)
  | info (name : String)
  | drop (name : String)
  | clear (name : String)
  | persist (name : String)
  | list
deriving Repr, DecidableEq

/-- `Request::parse`: whitespace split (`line.split(" ")`), positional
arguments, defaults `50000` / `0.05` for `create`.  The `Err` payload is
the `ParserError`'s `message` field. -/
def Request.parse (line : String) : Except String Request :=
  match (splitCharsOn ' ' line.data).map (fun cs => String.mk cs) with
  | [] => Except.error "missing command"
  | cmd :: rest =>
    if cmd = "create" then
      match rest with
      | [] => Except.error "missing name"
      | name :: rest2 =>
        match parseUsize (rest2.headD "50000") with
        | none => Except.error "capacity must be an i64 value"
        | some capacity =>
          match parseF64 ((rest2.drop 1).headD "0.05") with
          | none =>
            Except.error "false-positive probability must be a f64 value"
          | some fpp => Except.ok (Request.create name capacity fpp)
    else if cmd = "set" then
      match rest with
      | [] => Except.error "missing name"
      | [_] => Except.error "missing key"
      | name :: key :: _ => Except.ok (Request.set name key)
    else if cmd = "check" then
      match rest with
      | [] => Except.error "missing name"
      | [_] => Except.error "missing key"
      | name :: key :: _ => Except.ok (Request.check name key)
    else if cmd = "info" then
      match rest with
      | [] => Except.error "missing filter name"
      | name :: _ => Except.ok (Request.info name)
    else if cmd = "drop" then
      match rest with
      | [] => Except.error "missing filter name"
      | name :: _ => Except.ok (Request.drop name)
    else if cmd = "clear" then
      match rest with
      | [] => Except.error "missing filter name"
      | name :: _ => Except.ok (Request.clear name)
    else if cmd = "persist" then
      match rest with
      | [] => Except.error "missing filter name"
      | name :: _ => Except.ok (Request.persist name)
    else if cmd = "list" then Except.ok Request.list
    else Except.error "unknown command"

/-- `enum Response`.  `True`/`False` are `rtrue`/`rfalse`; the `List`
payload is the `FilterProps` triples `(name, capacity, fpp)`. -/
inductive Response where
  | done
  | rtrue
  | rfalse
  | info (name : String) (capacity size : Nat) (space : String)
      (filters hash_count : Nat) (hits miss : Nat)
      (creation_time last_access_time : String)
  | error (message : String)
  | list (filters : List (String × Nat × ℚ))
deriving Repr, DecidableEq

/-- `Response::serialize`.  Numeric payloads are rendered with `toString`
(the exact Rust float formatting of the `fpp` in `List` rows is not
modelled; no claim exercises it). -/
def Response.serialize : Response → String
  | .done => "Done"
  | .rtrue => "True"
  | .rfalse => "False"
  | .info name capacity size space filters hash_count hits miss ct lat =>
    "name: " ++ name ++ "\ncapacity: " ++ toString capacity ++
      "\nsize: " ++ toString size ++ "\nspace: " ++ space ++
      "\nfilters: " ++ toString filters ++
      "\nhash functions: " ++ toString hash_count ++
      "\nhits: " ++ toString hits ++ "\nmiss: " ++ toString miss ++
      "\ncreation: " ++ ct ++ "\nlast access: " ++ lat
  | .list filters =>
    String.intercalate "\n"
      (filters.map (fun p => p.1 ++ " " ++ toString p.2.1 ++ " " ++
        toString p.2.2))
  | .error message => "Error: " ++ message

/-- `Error: no scalable filter named <n>`'s message. -/
def noFilterMsg (n : String) : String := "no scalable filter named " ++ n

/-- `{:?}` on the boxed `BloomFilterError`. -/
def errDbg (m : String) : String :=
  "BloomFilterError(" ++ "\"" ++ m ++ "\")"

/-- The `set ... failed` message of the Set arm. -/
def setFailMsg (key name m : String) : String :=
  "set " ++ "\"" ++ key ++ "\" into \"" ++ name ++ "\" filter failed: " ++
    errDbg m

/-- Stand-in for the `{:?}` debug text of a failed `from_file` (an
`io::Error`); its content is irrelevant to every claim. -/
def ioErrDbg : String := "Os 2 NotFound"

def recoverSetMsg (name : String) : String :=
  "error recovering cold filter named " ++ name ++ ": " ++ ioErrDbg

def recoverInfoMsg (name : String) : String :=
  "error recovering cold scalable filter named " ++ name ++ ": " ++ ioErrDbg

/-- `FilterDatabase` (`filters`, `cold_filters`) plus the data
directory. -/
structure ServerState where
  filters : List (String × ScalableBloomFilter)
  cold_filters : List String
  disk : List (String × ScalableBloomFilter)
deriving Repr, DecidableEq

/-- The registry right after `run`'s initialization with an empty data
directory. -/
def initialState : ServerState :=
  { filters := [], cold_filters := [], disk := [] }

/-- `get_filter_info`; `fmt` models the RFC-3339 rendering of a UTC
second timestamp. -/
def get_filter_info (fmt : Int → String) (f : ScalableBloomFilter) :
    Response :=
  Response.info f.name f.capacity f.size (toString f.byte_space)
    f.filter_count f.hash_count f.hits f.miss
    (fmt f.creation_time) (fmt f.last_access_time)

/-- `handle_request`, after parsing (one arm per `Request` variant). -/
def handleReq (h : Hash) (fns : SizeFns) (fmt : Int → String) (now : Int) :
    Request → ServerState → Option (Response × ServerState)
  | .create name capacity fpp, st =>
    some (Response.done,
      { st with filters := (entryOrInsert st.filters name
          (ScalableBloomFilter.new name capacity fpp
            ScaleFactor.smallScaleSize now)) })
  | .set name key, st =>
    match mapGet st.filters name with
    | some sbf =>
      match ScalableBloomFilter.set h fns now (strToBytes key) sbf with
      | none => none
      | some (res, sbf') =>
        some ((match res with
            | Except.ok _ => Response.done
            | Except.error e => Response.error (setFailMsg key name e)),
          { st with filters := mapInsert st.filters name sbf' })
    | none =>
      if st.cold_filters.contains name then
        match mapGet st.disk name with
        | some f =>
          match ScalableBloomFilter.set h fns now (strToBytes key) f with
          | none => none
          | some (res, f') =>
            some ((match res with
                | Except.ok _ => Response.done
                | Except.error e => Response.error (setFailMsg key name e)),
              { st with filters := mapInsert st.filters f'.name f'
                        cold_filters := setRemove st.cold_filters name })
        | none => some (Response.error (recoverSetMsg name), st)
      else some (Response.error (noFilterMsg name), st)
  | .check name key, st =>
    match mapGet st.filters name with
    | some sbf =>
      match ScalableBloomFilter.check h now (strToBytes key) sbf with
      | none => none
      | some (b, sbf') =>
        some ((if b then Response.rtrue else Response.rfalse),
          { st with filters := mapInsert st.filters name sbf' })
    | none =>
      if st.cold_filters.contains name then
        match mapGet st.disk name with
        | some f =>
          match ScalableBloomFilter.check h now (strToBytes key) f with
          | none => none
          | some (b, f') =>
            some ((if b then Response.rtrue else Response.rfalse),
              { st with filters := mapInsert st.filters f'.name f'
                        cold_filters := setRemove st.cold_filters name })
        | none => some (Response.error (recoverSetMsg name), st)
      else some (Response.error (noFilterMsg name), st)
  | .info name, st =>
    match mapGet st.filters name with
    | some sbf => some (get_filter_info fmt sbf, st)
    | none =>
      if st.cold_filters.contains name then
        match mapGet st.disk name with
        | some f => some (get_filter_info fmt f, st)
        | none => some (Response.error (recoverInfoMsg name), st)
      else some (Response.error (noFilterMsg name), st)
  | .drop name, st =>
    if mapContains st.filters name then
      some (Response.done, { st with filters := mapRemove st.filters name })
    else some (Response.error (noFilterMsg name), st)
  | .clear name, st =>
    match mapGet st.filters name with
    | some sbf =>
      some (Response.done,
        { st with filters := (mapInsert st.filters name
            (ScalableBloomFilter.clear now sbf)) })
    | none => some (Response.error (noFilterMsg name), st)
  | .persist name, st =>
    match mapGet st.filters name with
    | some sbf =>
      some (Response.done,
        { st with disk := mapInsert st.disk sbf.name sbf })
    | none => some (Response.error (noFilterMsg name), st)
  | .list, st =>
    some (Response.list
      (st.filters.map (fun p => (p.2.name, p.2.capacity, p.2.fpp))), st)

/-- `handle_request` on a raw line: a parse error is answered with
`Response::Error(e.message)` (note: NOT the `Display` form, which would
prepend `parser error: `). -/
def handleLine (h : Hash) (fns : SizeFns) (fmt : Int → String) (now : Int)
    (line : String) (st : ServerState) : Option (Response × ServerState) :=
  match Request.parse line with
  | Except.error msg => some (Response.error msg, st)
  | Except.ok req => handleReq h fns fmt now req st

/-- One pass of `dump_cold_filters` (the cold sweep): dump to disk and
mark cold every warm filter with `now − last_access_time > 3600`, then
retain only those with `now − last_access_time < 3600`. -/
def dumpColdPass (now : Int) (st : ServerState) : ServerState :=
  let dumped := st.filters.filter
    (fun p => 3600 < now - p.2.last_access_time)
  { filters := st.filters.filter
      (fun p => now - p.2.last_access_time < 3600)
    cold_filters := dumped.foldl (fun c p => setInsert c p.1) st.cold_filters
    disk := dumped.foldl (fun d p => mapInsert d p.2.name p.2) st.disk }

/-- A transition of the registry: a completed dispatcher request or one
cold-sweep pass. -/
inductive ServerStep (h : Hash) (fns : SizeFns) (fmt : Int → String) :
    ServerState → ServerState → Prop where
  | request (now : Int) (req : Request) (r : Response)
      {st st' : ServerState} :
      handleReq h fns fmt now req st = some (r, st') →
      ServerStep h fns fmt st st'
  | sweep (now : Int) {st : ServerState} :
      ServerStep h fns fmt st (dumpColdPass now st)

/-- Registry states reachable from the empty registry. -/
inductive Reach (h : Hash) (fns : SizeFns) (fmt : Int → String) :
    ServerState → Prop where
  | init : Reach h fns fmt initialState
  | step {st st' : ServerState} : Reach h fns fmt st →
      ServerStep h fns fmt st st' → Reach h fns fmt st'

/-! ### Registry invariants and map-helper lemmas -/

/-- `filters.keys ∩ cold_filters = ∅`. -/
def DisjNames (st : ServerState) : Prop :=
  ∀ p ∈ st.filters, p.1 ∉ st.cold_filters

/-- Every on-disk blob is stored under its filter's own name. -/
def DiskNamed (st : ServerState) : Prop :=
  ∀ p ∈ st.disk, p.2.name = p.1

/-- The registry map has no duplicate keys. -/
def NodupKeys (st : ServerState) : Prop :=
  (st.filters.map (fun p => p.1)).Nodup

/-- Every cold name has a blob on disk. -/
def ColdOnDisk (st : ServerState) : Prop :=
  ∀ n ∈ st.cold_filters, ∃ p ∈ st.disk, p.1 = n

def ServerInv (st : ServerState) : Prop :=
  DisjNames st ∧ DiskNamed st ∧ NodupKeys st

instance (st : ServerState) : Decidable (DisjNames st) := by
  unfold DisjNames; infer_instance

instance (st : ServerState) : Decidable (DiskNamed st) := by
  unfold DiskNamed; infer_instance

instance (st : ServerState) : Decidable (NodupKeys st) := by
  unfold NodupKeys; infer_instance

instance (st : ServerState) : Decidable (ColdOnDisk st) := by
  unfold ColdOnDisk; infer_instance

instance (st : ServerState) : Decidable (ServerInv st) := by
  unfold ServerInv; infer_instance

theorem mapGet_mem {α : Type} {m : List (String × α)} {k : String} {v : α}
    (hg : mapGet m k = some v) : (k, v) ∈ m := by
  unfold mapGet at hg
  obtain ⟨p0, hp0, he⟩ := Option.map_eq_some'.mp hg
  have hmem := List.mem_of_find?_eq_some hp0
  have hk : p0.1 = k := by
    have := List.find?_some hp0
    simpa using this
  have : (k, v) = p0 := by
    rw [← hk, ← he]
  rw [this]
  exact hmem

theorem mapGet_none {α : Type} {m : List (String × α)} {k : String}
    (hg : mapGet m k = none) : ∀ p ∈ m, p.1 ≠ k := by
  unfold mapGet at hg
  rw [Option.map_eq_none'] at hg
  intro p hp he
  have := List.find?_eq_none.mp hg p hp
  simp [he] at this

theorem mapContains_false {α : Type} {m : List (String × α)} {k : String}
    (hc : mapContains m k = false) : ∀ p ∈ m, p.1 ≠ k := by
  unfold mapContains at hc
  intro p hp he
  have := (List.any_eq_false).mp hc p hp
  simp [he] at this

theorem mapContains_of_mem {α : Type} {m : List (String × α)} {p}
    (hp : p ∈ m) : mapContains m p.1 = true := by
  unfold mapContains
  rw [List.any_eq_true]
  exact ⟨p, hp, by simp⟩

theorem mapGet_contains {α : Type} {m : List (String × α)} {k : String}
    {v : α} (hg : mapGet m k = some v) : mapContains m k = true := by
  have := mapContains_of_mem (mapGet_mem hg)
  simpa using this

theorem mapGet_none_of_contains_false {α : Type} {m : List (String × α)}
    {k : String} (hc : mapContains m k = false) : mapGet m k = none := by
  unfold mapGet
  rw [Option.map_eq_none', List.find?_eq_none]
  intro p hp
  simp [mapContains_false hc p hp]

theorem mem_mapInsert {α : Type} {m : List (String × α)} {k : String}
    {v : α} {p : String × α} (hp : p ∈ mapInsert m k v) :
    p = (k, v) ∨ (p ∈ m ∧ p.1 ≠ k) := by
  unfold mapInsert at hp
  split at hp
  · obtain ⟨q, hq, he⟩ := List.mem_map.mp hp
    by_cases hqk : q.1 = k
    · left
      rw [← he, if_pos (by simpa using hqk)]
    · right
      rw [← he, if_neg (by simpa using hqk)]
      exact ⟨hq, hqk⟩
  · rename_i hnone
    have hf : (m.any fun p => p.1 == k) = false :=
      Bool.eq_false_iff.mpr hnone
    rcases List.mem_append.mp hp with hp | hp
    · right
      refine ⟨hp, ?_⟩
      intro he
      have := List.any_eq_false.mp hf p hp
      simp [he] at this
    · left
      simpa using hp

theorem keys_mapInsert {α : Type} (m : List (String × α)) (k : String)
    (v : α) :
    (mapInsert m k v).map (fun p => p.1) =
      (if mapContains m k then m.map (fun p => p.1)
        else m.map (fun p => p.1) ++ [k]) := by
  unfold mapInsert mapContains
  split
  · rw [List.map_map]
    apply List.map_congr_left
    intro p _
    by_cases hpk : p.1 = k
    · simp [hpk]
    · simp [if_neg (by simpa using hpk), Function.comp]
  · simp

theorem keys_mapInsert_nodup {α : Type} {m : List (String × α)}
    {k : String} {v : α} (hn : (m.map (fun p => p.1)).Nodup) :
    ((mapInsert m k v).map (fun p => p.1)).Nodup := by
  rw [keys_mapInsert]
  split
  · exact hn
  · rename_i hc
    have hkn : k ∉ m.map (fun p => p.1) := by
      intro hk
      obtain ⟨p, hp, he⟩ := List.mem_map.mp hk
      have := mapContains_false (Bool.eq_false_iff.mpr hc) p hp
      exact this he
    simp [List.nodup_append, hn, hkn]

theorem mem_entryOrInsert {α : Type} {m : List (String × α)} {k : String}
    {v : α} {p : String × α} (hp : p ∈ entryOrInsert m k v) :
    p ∈ m ∨ p = (k, v) := by
  unfold entryOrInsert at hp
  split at hp
  · exact Or.inl hp
  · rcases List.mem_append.mp hp with hp | hp
    · exact Or.inl hp
    · exact Or.inr (by simpa using hp)

theorem keys_entryOrInsert_nodup {α : Type} {m : List (String × α)}
    {k : String} {v : α} (hn : (m.map (fun p => p.1)).Nodup) :
    ((entryOrInsert m k v).map (fun p => p.1)).Nodup := by
  unfold entryOrInsert
  split
  · exact hn
  · rename_i hc
    have hkn : k ∉ m.map (fun p => p.1) := by
      intro hk
      obtain ⟨p, hp, he⟩ := List.mem_map.mp hk
      have hf : (m.any fun p => p.1 == k) = false :=
        Bool.eq_false_iff.mpr hc
      have := List.any_eq_false.mp hf p hp
      simp [he] at this
    simp [List.nodup_append, hn, hkn]

theorem mem_mapRemove {α : Type} {m : List (String × α)} {k : String}
    {p : String × α} : p ∈ mapRemove m k ↔ p ∈ m ∧ p.1 ≠ k := by
  unfold mapRemove
  rw [List.mem_filter]
  simp

theorem keys_mapRemove_nodup {α : Type} {m : List (String × α)}
    {k : String} (hn : (m.map (fun p => p.1)).Nodup) :
    ((mapRemove m k).map (fun p => p.1)).Nodup :=
  List.Nodup.sublist (List.Sublist.map _ (List.filter_sublist m)) hn

theorem mem_setInsert {s : List String} {k x : String} :
    x ∈ setInsert s k ↔ x ∈ s ∨ x = k := by
  unfold setInsert
  split
  · rename_i hc
    constructor
    · exact Or.inl
    · rintro (hx | rfl)
      · exact hx
      · exact List.mem_of_elem_eq_true hc
  · simp [List.mem_append]

theorem mem_setRemove {s : List String} {k x : String} :
    x ∈ setRemove s k ↔ x ∈ s ∧ x ≠ k := by
  unfold setRemove
  rw [List.mem_filter]
  simp

theorem mem_foldl_setInsert {l : List (String × ScalableBloomFilter)}
    {c : List String} {x : String} :
    x ∈ l.foldl (fun c q => setInsert c q.1) c ↔
      x ∈ c ∨ ∃ q ∈ l, q.1 = x := by
  induction l generalizing c with
  | nil => simp
  | cons q l ih =>
    simp only [List.foldl_cons, ih, mem_setInsert]
    constructor
    · rintro ((hx | rfl) | ⟨q', hq', rfl⟩)
      · exact Or.inl hx
      · exact Or.inr ⟨q, List.mem_cons_self q l, rfl⟩
      · exact Or.inr ⟨q', List.mem_cons_of_mem q hq', rfl⟩
    · rintro (hx | ⟨q', hq', rfl⟩)
      · exact Or.inl (Or.inl hx)
      · rcases List.mem_cons.mp hq' with rfl | hmem
        · exact Or.inl (Or.inr rfl)
        · exact Or.inr ⟨q', hmem, rfl⟩

theorem keys_mapInsert_mem {α : Type} {m : List (String × α)} {x k : String}
    {v : α} (hx : x ∈ m.map (fun p => p.1) ∨ x = k) :
    x ∈ (mapInsert m k v).map (fun p => p.1) := by
  rw [keys_mapInsert]
  split
  · rename_i hc
    rcases hx with hx | rfl
    · exact hx
    · unfold mapContains at hc
      obtain ⟨p, hp, he⟩ := List.any_eq_true.mp hc
      exact List.mem_map.mpr ⟨p, hp, by simpa using he⟩
  · rcases hx with hx | rfl
    · exact List.mem_append_left _ hx
    · exact List.mem_append_right _ (by simp)

theorem keys_foldl_mapInsert
    {l : List (String × ScalableBloomFilter)}
    {d : List (String × ScalableBloomFilter)} {x : String} :
    (x ∈ d.map (fun p => p.1) ∨ ∃ q ∈ l, q.2.name = x) →
    x ∈ (l.foldl (fun d q => mapInsert d q.2.name q.2) d).map
      (fun p => p.1) := by
  induction l generalizing d with
  | nil =>
    rintro (hx | ⟨q, hq, _⟩)
    · exact hx
    · simp at hq
  | cons q l ih =>
    rintro (hx | ⟨q', hq', rfl⟩)
    · exact ih (Or.inl (keys_mapInsert_mem (Or.inl hx)))
    · rcases List.mem_cons.mp hq' with rfl | hmem
      · exact ih (Or.inl (keys_mapInsert_mem (Or.inr rfl)))
      · exact ih (Or.inr ⟨q', hmem, rfl⟩)

theorem disknamed_mapInsert {d : List (String × ScalableBloomFilter)}
    {f : ScalableBloomFilter}
    (hd : ∀ p ∈ d, p.2.name = p.1) :
    ∀ p ∈ mapInsert d f.name f, p.2.name = p.1 := by
  intro p hp
  rcases mem_mapInsert hp with rfl | ⟨hp, _⟩
  · rfl
  · exact hd p hp

theorem disknamed_foldl_mapInsert
    {l : List (String × ScalableBloomFilter)}
    {d : List (String × ScalableBloomFilter)}
    (hd : ∀ p ∈ d, p.2.name = p.1) :
    ∀ p ∈ l.foldl (fun d q => mapInsert d q.2.name q.2) d,
      p.2.name = p.1 := by
  induction l generalizing d with
  | nil => intro p hp; exact hd p hp
  | cons q l ih =>
    exact ih (disknamed_mapInsert hd)

theorem nodup_map_inj {α β : Type} {l : List α} {f : α → β}
    (hn : (l.map f).Nodup) :
    ∀ a ∈ l, ∀ b ∈ l, f a = f b → a = b := by
  induction l with
  | nil => simp
  | cons x xs ih =>
    simp only [List.map_cons, List.nodup_cons] at hn
    intro a ha b hb he
    rcases List.mem_cons.mp ha with rfl | ha'
    · rcases List.mem_cons.mp hb with rfl | hb'
      · rfl
      · refine absurd ?_ hn.1
        rw [he]
        exact List.mem_map_of_mem f hb'
    · rcases List.mem_cons.mp hb with rfl | hb'
      · refine absurd ?_ hn.1
        rw [← he]
        exact List.mem_map_of_mem f ha'
      · exact ih hn.2 a ha' b hb' he

/-! ### Name preservation by the scalable-filter operations -/

theorem sbf_set_name {h : Hash} {fns : SizeFns} {now : Int} {x : Bytes}
    {s s' : ScalableBloomFilter} {r : Except String Bool}
    (hs : ScalableBloomFilter.set h fns now x s = some (r, s')) :
    s'.name = s.name := by
  unfold ScalableBloomFilter.set at hs
  revert hs
  split
  · intro hs; exact absurd hs (by simp)
  · rename_i s2 hc
    intro hs
    obtain ⟨_, hs'⟩ := Prod.mk.injEq .. ▸ Option.some_inj.mp hs
    subst hs'
    exact (sbf_check_fields hc).2.1
  · rename_i s2 hc
    intro hs
    revert hs
    split
    · intro hs; exact absurd hs (by simp)
    · split
      · intro hs; exact absurd hs (by simp)
      · intro hs
        obtain ⟨_, hs'⟩ := Prod.mk.injEq .. ▸ Option.some_inj.mp hs
        subst hs'
        exact (sbf_check_fields hc).2.1

theorem sbf_check_name {h : Hash} {now : Int} {x : Bytes}
    {s s' : ScalableBloomFilter} {b : Bool}
    (hc : ScalableBloomFilter.check h now x s = some (b, s')) :
    s'.name = s.name := (sbf_check_fields hc).2.1

/-! ### Response-message disambiguation -/

theorem setFailMsg_head (k n m : String) :
    (setFailMsg k n m).data.head? = some 's' := by
  have h1 : "set ".data.head? = some 's' := rfl
  simp [setFailMsg, errDbg, String.data_append, List.head?_append, h1]

theorem noFilterMsg_head (n : String) :
    (noFilterMsg n).data.head? = some 'n' := by
  have h1 : "no scalable filter named ".data.head? = some 'n' := rfl
  simp [noFilterMsg, String.data_append, List.head?_append, h1]

theorem recoverSetMsg_head (n : String) :
    (recoverSetMsg n).data.head? = some 'e' := by
  have h1 : "error recovering cold filter named ".data.head? = some 'e' := rfl
  simp [recoverSetMsg, String.data_append, List.head?_append, h1]

theorem setFailMsg_ne_noFilterMsg (k n m n' : String) :
    setFailMsg k n m ≠ noFilterMsg n' := by
  intro he
  have h2 : (setFailMsg k n m).data.head? = (noFilterMsg n').data.head? :=
    congrArg (fun s => s.data.head?) he
  rw [setFailMsg_head, noFilterMsg_head] at h2
  simp at h2

theorem recoverSetMsg_ne_noFilterMsg (n n' : String) :
    recoverSetMsg n ≠ noFilterMsg n' := by
  intro he
  have h2 : (recoverSetMsg n).data.head? = (noFilterMsg n').data.head? :=
    congrArg (fun s => s.data.head?) he
  rw [recoverSetMsg_head, noFilterMsg_head] at h2
  simp at h2

/-- A concrete timestamp renderer for witnesses (its content is
irrelevant to every claim). -/
def fmtW : Int → String := fun _ => "1970-01-01T00:00:00+00:00"

/-- Handling an `Info` request never changes the registry state. -/
theorem handle_info_unchanged (h : Hash) (fns : SizeFns)
    (fmt : Int → String) (now : Int) (n : String) (st : ServerState) :
    ∃ r, handleReq h fns fmt now (Request.info n) st = some (r, st) := by
  cases hg : mapGet st.filters n with
  | some sbf => exact ⟨get_filter_info fmt sbf, by simp [handleReq, hg]⟩
  | none =>
    cases hc : st.cold_filters.contains n with
    | true =>
      have hmem : n ∈ st.cold_filters := List.mem_of_elem_eq_true hc
      cases hd : mapGet st.disk n with
      | some f =>
        exact ⟨get_filter_info fmt f, by simp [handleReq, hg, hmem, hd]⟩
      | none =>
        exact ⟨Response.error (recoverInfoMsg n),
          by simp [handleReq, hg, hmem, hd]⟩
    | false =>
      have hnmem : n ∉ st.cold_filters := by
        intro hm
        have h2 : st.cold_filters.contains n = true :=
          List.elem_eq_true_of_mem hm
        rw [hc] at h2
        exact absurd h2 (by simp)
      exact ⟨Response.error (noFilterMsg n), by simp [handleReq, hg, hnmem]⟩

/-! ### Claim C10 -/

/-- C10 — `info` never mutates: for every name and every registry state,
handling an `Info` request completes with some response and returns the
state COMPLETELY unchanged — `filters`, `cold_filters` and the disk are
the same objects, so no resident filter's `last_access_time`, `hits` or
`miss` changes, repeated `info` calls cannot keep a filter warm, and
`info` on a cold name does not promote it to warm. -/
theorem C10_theorem (h : Hash) (fns : SizeFns) (fmt : Int → String)
    (now : Int) (n : String) (st : ServerState) :
    ∃ r, handleReq h fns fmt now (Request.info n) st = some (r, st) :=
  handle_info_unchanged h fns fmt now n st

/-! ### Claim C9 -/

/-- C9 — counterexample.  The server's single response line for
`create bad foo 0.01` is `Error: capacity must be an i64 value` — the
dispatcher answers with `ParserError`'s bare `message` field
(`Response::Error(e.message)`), NOT with its `Display` form, so the
claimed line `Error: parser error: capacity must be an i64 value` is not
what is sent. -/
theorem C9_counterexample :
    (handleLine hW fnsW fmtW 0 "create bad foo 0.01" initialState).map
        (fun p => Response.serialize p.1) =
      some "Error: capacity must be an i64 value" ∧
    "Error: capacity must be an i64 value" ≠
      "Error: parser error: capacity must be an i64 value" :=
  ⟨by decide, by decide⟩

/-- C9 (amended) — for the request line `create bad foo 0.01` (capacity
argument not a number), parsing fails with message
`capacity must be an i64 value`, the state is untouched, and the single
serialized response line is exactly
`Error: capacity must be an i64 value` (without the `parser error: `
prefix of `ParserError`'s `Display` implementation, which
`handle_request` bypasses by using `e.message`). -/
theorem C9_theorem (h : Hash) (fns : SizeFns) (fmt : Int → String)
    (now : Int) (st : ServerState) :
    Request.parse "create bad foo 0.01" =
      Except.error "capacity must be an i64 value" ∧
    handleLine h fns fmt now "create bad foo 0.01" st =
      some (Response.error "capacity must be an i64 value", st) ∧
    Response.serialize (Response.error "capacity must be an i64 value") =
      "Error: capacity must be an i64 value" := by
  have hp : Request.parse "create bad foo 0.01" =
      Except.error "capacity must be an i64 value" := by decide
  refine ⟨hp, ?_, rfl⟩
  unfold handleLine
  rw [hp]

/-! ### Claim C7 -/

/-- C7 (amended) — In one pass of the cold sweep, every warm filter whose
idle time is STRICTLY greater than 3600 seconds is written to disk and
its name is inserted into `cold_filters`; exactly the filters with idle
time strictly below 3600 seconds remain in `filters`; and a filter whose
idle time is EXACTLY 3600 seconds is silently lost: it is removed from
`filters` (the retain predicate is `< 3600`) without being dumped or
entering `cold_filters` (the dump predicate is `> 3600`, not `≥` as
claimed). -/
theorem C7_theorem (now : Int) (st : ServerState) (k : String)
    (f : ScalableBloomFilter) (hnd : NodupKeys st)
    (hmem : (k, f) ∈ st.filters) :
    (3600 < now - f.last_access_time →
      k ∈ (dumpColdPass now st).cold_filters ∧
      f.name ∈ (dumpColdPass now st).disk.map (fun p => p.1)) ∧
    ((k, f) ∈ (dumpColdPass now st).filters ↔
      now - f.last_access_time < 3600) ∧
    (now - f.last_access_time = 3600 →
      (k, f) ∉ (dumpColdPass now st).filters ∧
      (k ∈ (dumpColdPass now st).cold_filters ↔ k ∈ st.cold_filters)) := by
  refine ⟨?_, ?_, ?_⟩
  · intro hgt
    have hdmem : (k, f) ∈ st.filters.filter
        (fun p => 3600 < now - p.2.last_access_time) := by
      rw [List.mem_filter]
      exact ⟨hmem, by simpa using hgt⟩
    constructor
    · exact mem_foldl_setInsert.mpr (Or.inr ⟨(k, f), hdmem, rfl⟩)
    · exact keys_foldl_mapInsert (Or.inr ⟨(k, f), hdmem, rfl⟩)
  · show (k, f) ∈ st.filters.filter
      (fun p => now - p.2.last_access_time < 3600) ↔ _
    rw [List.mem_filter]
    simp [hmem]
  · intro heq
    constructor
    · show (k, f) ∉ st.filters.filter
        (fun p => now - p.2.last_access_time < 3600)
      rw [List.mem_filter]
      rintro ⟨_, hlt⟩
      simp only [decide_eq_true_eq] at hlt
      omega
    · constructor
      · intro hk
        rcases mem_foldl_setInsert.mp hk with hk | ⟨q, hq, hqe⟩
        · exact hk
        · rw [List.mem_filter] at hq
          have hqk : q = (k, f) :=
            nodup_map_inj hnd q hq.1 (k, f) hmem hqe
          rw [hqk] at hq
          simp only [decide_eq_true_eq] at hq
          omega
      · intro hk
        exact mem_foldl_setInsert.mpr (Or.inl hk)

/-- The warm filter created by `create a 5 0.01` at time 0. -/
def sbfAW : ScalableBloomFilter :=
  ScalableBloomFilter.new "a" 5 (mkRat 1 100) ScaleFactor.smallScaleSize 0

/-- A registry with the single warm filter `a`, last accessed at 0. -/
def stA : ServerState :=
  { filters := [("a", sbfAW)], cold_filters := [], disk := [] }

/-- C7 — counterexample.  At `now = 3600` the filter `a` has idle time
exactly 3600 = T_idle, so the claim requires it to be dumped and marked
cold; the sweep instead leaves everything empty: the name is gone from
`filters` without entering `cold_filters` or the disk. -/
theorem C7_counterexample :
    3600 - sbfAW.last_access_time = 3600 ∧
    (dumpColdPass 3600 stA).filters = [] ∧
    (dumpColdPass 3600 stA).cold_filters = [] ∧
    (dumpColdPass 3600 stA).disk = [] := by
  refine ⟨by decide, by decide, by decide, by decide⟩

/-- Witness for C7 (amended): at `now = 3700` the filter `a` (idle 3700)
is dumped and marked cold, and it no longer stays warm. -/
theorem C7_witness :
    (3600 < (3700 : Int) - sbfAW.last_access_time →
      "a" ∈ (dumpColdPass 3700 stA).cold_filters ∧
      sbfAW.name ∈ (dumpColdPass 3700 stA).disk.map (fun p => p.1)) ∧
    (("a", sbfAW) ∈ (dumpColdPass 3700 stA).filters ↔
      3700 - sbfAW.last_access_time < 3600) ∧
    (3700 - sbfAW.last_access_time = 3600 →
      ("a", sbfAW) ∉ (dumpColdPass 3700 stA).filters ∧
      ("a" ∈ (dumpColdPass 3700 stA).cold_filters ↔
        "a" ∈ stA.cold_filters)) :=
  C7_theorem 3700 stA "a" sbfAW (by decide) (by decide)

/-! ### Claim C6 -/

/-- C6 (amended) — The invariant `filters.keys ∩ cold_filters = ∅`
(together with on-disk blobs being stored under their own name and the
key set having no duplicates) is preserved by every cold-sweep pass and
by every completed dispatcher request EXCEPT a `create` whose name is
currently cold: the `Create` arm inserts into `filters` via
`entry().or_insert(..)` without consulting `cold_filters`, so it must be
excluded (see the counterexample, where it leaves the name in both). -/
theorem C6_theorem :
    (∀ (h : Hash) (fns : SizeFns) (fmt : Int → String) (now : Int)
        (req : Request) (r : Response) (st st' : ServerState),
      ServerInv st →
      handleReq h fns fmt now req st = some (r, st') →
      (∀ nm c p, req = Request.create nm c p → nm ∉ st.cold_filters) →
      ServerInv st') ∧
    (∀ (now : Int) (st : ServerState),
      ServerInv st → ServerInv (dumpColdPass now st)) := by
  constructor
  · intro h fns fmt now req r st st' hinv hreq hside
    obtain ⟨hdisj, hdn, hnk⟩ := hinv
    cases req with
    | create nm c p =>
      simp only [handleReq] at hreq
      obtain ⟨hr, hst'⟩ := Prod.mk.injEq .. ▸ Option.some_inj.mp hreq
      subst hst'
      refine ⟨?_, hdn, keys_entryOrInsert_nodup hnk⟩
      intro q hq
      rcases mem_entryOrInsert hq with hq | hq
      · exact hdisj q hq
      · rw [hq]
        simpa using hside nm c p rfl
    | set nm key =>
      simp only [handleReq] at hreq
      split at hreq
      next sbf hg =>
        split at hreq
        next hset => exact absurd hreq (by simp)
        next res sbf' hset =>
          obtain ⟨hr, hst'⟩ := Prod.mk.injEq .. ▸ Option.some_inj.mp hreq
          subst hst'
          refine ⟨?_, hdn, keys_mapInsert_nodup hnk⟩
          intro q hq
          rcases mem_mapInsert hq with hq | ⟨hq, _⟩
          · rw [hq]
            exact hdisj (nm, sbf) (mapGet_mem hg)
          · exact hdisj q hq
      next hg =>
        split at hreq
        · split at hreq
          next f hdg =>
            split at hreq
            next hset => exact absurd hreq (by simp)
            next res f' hset =>
              obtain ⟨hr, hst'⟩ := Prod.mk.injEq .. ▸ Option.some_inj.mp hreq
              subst hst'
              have hfn : f.name = nm := hdn (nm, f) (mapGet_mem hdg)
              have hfn' : f'.name = nm := by rw [sbf_set_name hset, hfn]
              refine ⟨?_, hdn, keys_mapInsert_nodup hnk⟩
              intro q hq
              rcases mem_mapInsert hq with hq | ⟨hq, _⟩
              · rw [hq]
                intro hmem2
                exact (mem_setRemove.mp hmem2).2 hfn'
              · intro hmem2
                exact hdisj q hq (mem_setRemove.mp hmem2).1
          next hdg =>
            obtain ⟨hr, hst'⟩ := Prod.mk.injEq .. ▸ Option.some_inj.mp hreq
            subst hst'
            exact ⟨hdisj, hdn, hnk⟩
        · obtain ⟨hr, hst'⟩ := Prod.mk.injEq .. ▸ Option.some_inj.mp hreq
          subst hst'
          exact ⟨hdisj, hdn, hnk⟩
    | check nm key =>
      simp only [handleReq] at hreq
      split at hreq
      next sbf hg =>
        split at hreq
        next hchk => exact absurd hreq (by simp)
        next b sbf' hchk =>
          obtain ⟨hr, hst'⟩ := Prod.mk.injEq .. ▸ Option.some_inj.mp hreq
          subst hst'
          refine ⟨?_, hdn, keys_mapInsert_nodup hnk⟩
          intro q hq
          rcases mem_mapInsert hq with hq | ⟨hq, _⟩
          · rw [hq]
            exact hdisj (nm, sbf) (mapGet_mem hg)
          · exact hdisj q hq
      next hg =>
        split at hreq
        · split at hreq
          next f hdg =>
            split at hreq
            next hchk => exact absurd hreq (by simp)
            next b f' hchk =>
              obtain ⟨hr, hst'⟩ := Prod.mk.injEq .. ▸ Option.some_inj.mp hreq
              subst hst'
              have hfn : f.name = nm := hdn (nm, f) (mapGet_mem hdg)
              have hfn' : f'.name = nm := by rw [sbf_check_name hchk, hfn]
              refine ⟨?_, hdn, keys_mapInsert_nodup hnk⟩
              intro q hq
              rcases mem_mapInsert hq with hq | ⟨hq, _⟩
              · rw [hq]
                intro hmem2
                exact (mem_setRemove.mp hmem2).2 hfn'
              · intro hmem2
                exact hdisj q hq (mem_setRemove.mp hmem2).1
          next hdg =>
            obtain ⟨hr, hst'⟩ := Prod.mk.injEq .. ▸ Option.some_inj.mp hreq
            subst hst'
            exact ⟨hdisj, hdn, hnk⟩
        · obtain ⟨hr, hst'⟩ := Prod.mk.injEq .. ▸ Option.some_inj.mp hreq
          subst hst'
          exact ⟨hdisj, hdn, hnk⟩
    | info nm =>
      obtain ⟨r0, he⟩ := handle_info_unchanged h fns fmt now nm st
      rw [he] at hreq
      obtain ⟨hr, hst'⟩ := Prod.mk.injEq .. ▸ Option.some_inj.mp hreq
      rw [← hst']
      exact ⟨hdisj, hdn, hnk⟩
    | drop nm =>
      simp only [handleReq] at hreq
      split at hreq
      · obtain ⟨hr, hst'⟩ := Prod.mk.injEq .. ▸ Option.some_inj.mp hreq
        subst hst'
        refine ⟨?_, hdn, keys_mapRemove_nodup hnk⟩
        intro q hq
        exact hdisj q (mem_mapRemove.mp hq).1
      · obtain ⟨hr, hst'⟩ := Prod.mk.injEq .. ▸ Option.some_inj.mp hreq
        subst hst'
        exact ⟨hdisj, hdn, hnk⟩
    | clear nm =>
      revert hreq
      cases hg : mapGet st.filters nm with
      | some sbf =>
        simp only [handleReq, hg]
        intro hreq
        obtain ⟨hr, hst'⟩ := Prod.mk.injEq .. ▸ Option.some_inj.mp hreq
        subst hst'
        refine ⟨?_, hdn, keys_mapInsert_nodup hnk⟩
        intro q hq
        rcases mem_mapInsert hq with hq | ⟨hq, _⟩
        · rw [hq]
          simpa using hdisj (nm, sbf) (mapGet_mem hg)
        · exact hdisj q hq
      | none =>
        simp only [handleReq, hg]
        intro hreq
        obtain ⟨hr, hst'⟩ := Prod.mk.injEq .. ▸ Option.some_inj.mp hreq
        subst hst'
        exact ⟨hdisj, hdn, hnk⟩
    | persist nm =>
      revert hreq
      cases hg : mapGet st.filters nm with
      | some sbf =>
        simp only [handleReq, hg]
        intro hreq
        obtain ⟨hr, hst'⟩ := Prod.mk.injEq .. ▸ Option.some_inj.mp hreq
        subst hst'
        exact ⟨hdisj, disknamed_mapInsert hdn, hnk⟩
      | none =>
        simp only [handleReq, hg]
        intro hreq
        obtain ⟨hr, hst'⟩ := Prod.mk.injEq .. ▸ Option.some_inj.mp hreq
        subst hst'
        exact ⟨hdisj, hdn, hnk⟩
    | list =>
      simp only [handleReq] at hreq
      obtain ⟨hr, hst'⟩ := Prod.mk.injEq .. ▸ Option.some_inj.mp hreq
      subst hst'
      exact ⟨hdisj, hdn, hnk⟩
  · intro now st hinv
    obtain ⟨hdisj, hdn, hnk⟩ := hinv
    refine ⟨?_, ?_, ?_⟩
    · intro q hq hqc
      have hq' := List.mem_filter.mp hq
      rcases mem_foldl_setInsert.mp hqc with hqc | ⟨p, hp, hpe⟩
      · exact hdisj q hq'.1 hqc
      · have hpf := List.mem_filter.mp hp
        have hpq : p = q := nodup_map_inj hnk p hpf.1 q hq'.1 hpe
        rw [hpq] at hpf
        have h1 := hq'.2
        have h2 := hpf.2
        simp only [decide_eq_true_eq] at h1 h2
        omega
    · exact disknamed_foldl_mapInsert hdn
    · exact List.Nodup.sublist
        (List.Sublist.map _ (List.filter_sublist _)) hnk

/-- The filter re-created under the cold name `a` at time 9999. -/
def sbfAW2 : ScalableBloomFilter :=
  ScalableBloomFilter.new "a" 5 (mkRat 1 100) ScaleFactor.smallScaleSize 9999

/-- The registry after `a` has been swept cold (dumped to disk). -/
def stC6b : ServerState :=
  { filters := [], cold_filters := ["a"], disk := [("a", sbfAW)] }

/-- The registry after `create a` is replayed on the cold name. -/
def stC6c : ServerState :=
  { filters := [("a", sbfAW2)], cold_filters := ["a"], disk := [("a", sbfAW)] }

/-- C6 — counterexample.  `create a` / sweep at 3601 / `create a` again
reaches a registry where `a` is simultaneously a key of `filters` and a
member of `cold_filters`: the claimed invariant
`filters.keys ∩ cold_filters = ∅` does not hold in every reachable
state, because the `Create` arm never consults `cold_filters`. -/
theorem C6_counterexample :
    Reach hW fnsW fmtW stC6c ∧
    ("a", sbfAW2) ∈ stC6c.filters ∧ "a" ∈ stC6c.cold_filters ∧
    ¬ DisjNames stC6c := by
  refine ⟨?_, by decide, by decide, ?_⟩
  · have r1 : Reach hW fnsW fmtW stA :=
      Reach.step Reach.init
        (ServerStep.request 0 (Request.create "a" 5 (mkRat 1 100))
          Response.done (by decide))
    have he : dumpColdPass 3601 stA = stC6b := by decide
    have r2 : Reach hW fnsW fmtW stC6b :=
      he ▸ Reach.step r1 (ServerStep.sweep 3601)
    exact Reach.step r2
      (ServerStep.request 9999 (Request.create "a" 5 (mkRat 1 100))
        Response.done (by decide))
  · intro hd
    exact hd ("a", sbfAW2) (by decide) (by decide)

/-- The registry produced by `create b` on the empty registry. -/
def stB : ServerState :=
  { filters := [("b",
      ScalableBloomFilter.new "b" 5 (mkRat 1 100)
        ScaleFactor.smallScaleSize 0)],
    cold_filters := [], disk := [] }

/-- Witness for C6 (amended): `create b` on the empty registry (whose
name is trivially not cold) lands in a state satisfying the invariant. -/
theorem C6_witness : ServerInv stB :=
  C6_theorem.1 hW fnsW fmtW 0 (Request.create "b" 5 (mkRat 1 100))
    Response.done initialState stB (by decide) (by decide)
    (fun nm _ _ _ => List.not_mem_nil nm)

/-! ### Claim C8 -/

/-- C8 — dispatch of `set`/`check` on a name `n` (given that on-disk
blobs are stored under their own name, as the registry maintains): if
`n` is a key of `filters` the operation is delegated to the resident
filter (which is re-inserted under `n`; `cold_filters` and the disk are
untouched); if `n` is absent from `filters` but in `cold_filters` and a
blob for `n` is on disk, the operation is performed on the loaded
filter, which is inserted into `filters` while `n` is removed from
`cold_filters`, all within the same request; and the response is the
error `no scalable filter named n` if and only if `n` is in neither
`filters` nor `cold_filters`. -/
theorem C8_theorem :
    (∀ (h : Hash) (fns : SizeFns) (fmt : Int → String) (now : Int)
        (n key : String) (st st' : ServerState) (r : Response),
      DiskNamed st →
      handleReq h fns fmt now (Request.set n key) st = some (r, st') →
      ((∀ sbf, mapGet st.filters n = some sbf →
          ∃ res sbf',
            ScalableBloomFilter.set h fns now (strToBytes key) sbf =
              some (res, sbf') ∧
            st' = { st with filters := mapInsert st.filters n sbf' } ∧
            r = (match res with
              | Except.ok _ => Response.done
              | Except.error e => Response.error (setFailMsg key n e))) ∧
        (mapGet st.filters n = none → n ∈ st.cold_filters →
          ∀ f, mapGet st.disk n = some f →
            ∃ res f',
              ScalableBloomFilter.set h fns now (strToBytes key) f =
                some (res, f') ∧
              st' = { st with
                        filters := mapInsert st.filters n f'
                        cold_filters := setRemove st.cold_filters n } ∧
              r = (match res with
                | Except.ok _ => Response.done
                | Except.error e => Response.error (setFailMsg key n e))) ∧
        (r = Response.error (noFilterMsg n) ↔
          mapGet st.filters n = none ∧ n ∉ st.cold_filters))) ∧
    (∀ (h : Hash) (fns : SizeFns) (fmt : Int → String) (now : Int)
        (n key : String) (st st' : ServerState) (r : Response),
      DiskNamed st →
      handleReq h fns fmt now (Request.check n key) st = some (r, st') →
      ((∀ sbf, mapGet st.filters n = some sbf →
          ∃ b sbf',
            ScalableBloomFilter.check h now (strToBytes key) sbf =
              some (b, sbf') ∧
            st' = { st with filters := mapInsert st.filters n sbf' } ∧
            r = (if b then Response.rtrue else Response.rfalse)) ∧
        (mapGet st.filters n = none → n ∈ st.cold_filters →
          ∀ f, mapGet st.disk n = some f →
            ∃ b f',
              ScalableBloomFilter.check h now (strToBytes key) f =
                some (b, f') ∧
              st' = { st with
                        filters := mapInsert st.filters n f'
                        cold_filters := setRemove st.cold_filters n } ∧
              r = (if b then Response.rtrue else Response.rfalse)) ∧
        (r = Response.error (noFilterMsg n) ↔
          mapGet st.filters n = none ∧ n ∉ st.cold_filters))) := by
  constructor
  · intro h fns fmt now n key st st' r hdn hreq
    simp only [handleReq] at hreq
    split at hreq
    next sbf hg =>
      split at hreq
      next hset => exact absurd hreq (by simp)
      next res sbf' hset =>
        obtain ⟨hr, hst'⟩ := Prod.mk.injEq .. ▸ Option.some_inj.mp hreq
        refine ⟨?_, ?_, ?_⟩
        · intro sbf0 hg0
          rw [hg] at hg0
          have he := Option.some_inj.mp hg0
          subst he
          exact ⟨res, sbf', hset, hst'.symm, hr.symm⟩
        · intro hg0
          rw [hg0] at hg
          simp at hg
        · rw [← hr]
          apply iff_of_false
          · cases res with
            | ok b => simp
            | error e =>
              intro hee
              injection hee with h1
              exact setFailMsg_ne_noFilterMsg key n e n h1
          · rintro ⟨hnone, _⟩
            rw [hg] at hnone
            simp at hnone
    next hg =>
      split at hreq
      next hcold =>
        split at hreq
        next f hdg =>
          split at hreq
          next hset => exact absurd hreq (by simp)
          next res f' hset =>
            obtain ⟨hr, hst'⟩ := Prod.mk.injEq .. ▸ Option.some_inj.mp hreq
            have hfn : f.name = n := hdn (n, f) (mapGet_mem hdg)
            have hfn' : f'.name = n := by rw [sbf_set_name hset, hfn]
            refine ⟨?_, ?_, ?_⟩
            · intro sbf0 hg0
              rw [hg0] at hg
              simp at hg
            · intro _ _ f0 hdg0
              rw [hdg] at hdg0
              have he := Option.some_inj.mp hdg0
              subst he
              refine ⟨res, f', hset, ?_, hr.symm⟩
              rw [← hst', hfn']
            · rw [← hr]
              apply iff_of_false
              · cases res with
                | ok b => simp
                | error e =>
                  intro hee
                  injection hee with h1
                  exact setFailMsg_ne_noFilterMsg key n e n h1
              · rintro ⟨_, hnc⟩
                exact hnc (List.mem_of_elem_eq_true hcold)
        next hdg =>
          obtain ⟨hr, hst'⟩ := Prod.mk.injEq .. ▸ Option.some_inj.mp hreq
          refine ⟨?_, ?_, ?_⟩
          · intro sbf0 hg0
            rw [hg0] at hg
            simp at hg
          · intro _ _ f0 hdg0
            rw [hdg0] at hdg
            simp at hdg
          · rw [← hr]
            apply iff_of_false
            · intro hee
              injection hee with h1
              exact recoverSetMsg_ne_noFilterMsg n n h1
            · rintro ⟨_, hnc⟩
              exact hnc (List.mem_of_elem_eq_true hcold)
      next hcold =>
        obtain ⟨hr, hst'⟩ := Prod.mk.injEq .. ▸ Option.some_inj.mp hreq
        refine ⟨?_, ?_, ?_⟩
        · intro sbf0 hg0
          rw [hg0] at hg
          simp at hg
        · intro _ hmem _ _
          exact absurd (List.elem_eq_true_of_mem hmem) hcold
        · rw [← hr]
          exact iff_of_true rfl
            ⟨hg, fun hmem => hcold (List.elem_eq_true_of_mem hmem)⟩
  · intro h fns fmt now n key st st' r hdn hreq
    simp only [handleReq] at hreq
    split at hreq
    next sbf hg =>
      split at hreq
      next hchk => exact absurd hreq (by simp)
      next b sbf' hchk =>
        obtain ⟨hr, hst'⟩ := Prod.mk.injEq .. ▸ Option.some_inj.mp hreq
        refine ⟨?_, ?_, ?_⟩
        · intro sbf0 hg0
          rw [hg] at hg0
          have he := Option.some_inj.mp hg0
          subst he
          exact ⟨b, sbf', hchk, hst'.symm, hr.symm⟩
        · intro hg0
          rw [hg0] at hg
          simp at hg
        · rw [← hr]
          apply iff_of_false
          · cases b <;> simp
          · rintro ⟨hnone, _⟩
            rw [hg] at hnone
            simp at hnone
    next hg =>
      split at hreq
      next hcold =>
        split at hreq
        next f hdg =>
          split at hreq
          next hchk => exact absurd hreq (by simp)
          next b f' hchk =>
            obtain ⟨hr, hst'⟩ := Prod.mk.injEq .. ▸ Option.some_inj.mp hreq
            have hfn : f.name = n := hdn (n, f) (mapGet_mem hdg)
            have hfn' : f'.name = n := by rw [sbf_check_name hchk, hfn]
            refine ⟨?_, ?_, ?_⟩
            · intro sbf0 hg0
              rw [hg0] at hg
              simp at hg
            · intro _ _ f0 hdg0
              rw [hdg] at hdg0
              have he := Option.some_inj.mp hdg0
              subst he
              refine ⟨b, f', hchk, ?_, hr.symm⟩
              rw [← hst', hfn']
            · rw [← hr]
              apply iff_of_false
              · cases b <;> simp
              · rintro ⟨_, hnc⟩
                exact hnc (List.mem_of_elem_eq_true hcold)
        next hdg =>
          obtain ⟨hr, hst'⟩ := Prod.mk.injEq .. ▸ Option.some_inj.mp hreq
          refine ⟨?_, ?_, ?_⟩
          · intro sbf0 hg0
            rw [hg0] at hg
            simp at hg
          · intro _ _ f0 hdg0
            rw [hdg0] at hdg
            simp at hdg
          · rw [← hr]
            apply iff_of_false
            · intro hee
              injection hee with h1
              exact recoverSetMsg_ne_noFilterMsg n n h1
            · rintro ⟨_, hnc⟩
              exact hnc (List.mem_of_elem_eq_true hcold)
      next hcold =>
        obtain ⟨hr, hst'⟩ := Prod.mk.injEq .. ▸ Option.some_inj.mp hreq
        refine ⟨?_, ?_, ?_⟩
        · intro sbf0 hg0
          rw [hg0] at hg
          simp at hg
        · intro _ hmem _ _
          exact absurd (List.elem_eq_true_of_mem hmem) hcold
        · rw [← hr]
          exact iff_of_true rfl
            ⟨hg, fun hmem => hcold (List.elem_eq_true_of_mem hmem)⟩

/-- A cold filter `a` with an on-disk blob, for the C8 witness. -/
def sbfA8 : ScalableBloomFilter :=
  ScalableBloomFilter.new "a" 5 (mkRat 1 100) ScaleFactor.smallScaleSize 0

def stC8 : ServerState :=
  { filters := [], cold_filters := ["a"], disk := [("a", sbfA8)] }

/-- The single stage of the revived filter after `set a x`. -/
def bfA8 : BloomFilter :=
  { capacity := 10, size := 1,
    bitmap := [true, false, false, false, false,
               false, false, false, false, false],
    hash_count := 1, hits := 0, miss := 0 }

/-- The registry after `set a x` at time 7 revives the cold filter. -/
def stC8' : ServerState :=
  { filters := [("a",
      { name := "a", initial_capacity := 5, filters := [bfA8],
        fpp := mkRat 1 100, scale_factor := ScaleFactor.smallScaleSize,
        creation_time := 0, last_access_time := 7 })],
    cold_filters := [], disk := [("a", sbfA8)] }

/-- Witness for C8: on a registry where `a` is cold with a blob on
disk, `set a x` at time 7 performs the operation on the loaded filter,
inserts the result into `filters` under `a` and removes `a` from
`cold_filters`, within the one request. -/
theorem C8_witness :
    ∃ res f',
      ScalableBloomFilter.set hW fnsW 7 (strToBytes "x") sbfA8 =
        some (res, f') ∧
      stC8' = { stC8 with
                  filters := mapInsert stC8.filters "a" f'
                  cold_filters := setRemove stC8.cold_filters "a" } ∧
      Response.done = (match res with
        | Except.ok _ => Response.done
        | Except.error e => Response.error (setFailMsg "x" "a" e)) :=
  (C8_theorem.1 hW fnsW fmtW 7 "a" "x" stC8 stC8' Response.done
      (by decide) (by decide)).2.1
    (by decide) (by decide) sbfA8 (by decide)
